import Mathlib

/-!
Verification model of the handoff storage engine of `session-context`.

The storage code of the repository lives in `src/storage/handoffs.ts`; the
snapshot at hand contains it through the two codemod scripts
`src/mcp/convert_to_bun.py` and `src/mcp/optimize_listHandoffs.py`, whose
search patterns and replacement strings embed the TypeScript source of
`listHandoffs`, `getProjectHash`, `readHandoff` and `writeHandoff` verbatim.
This file gives a shallow embedding of those functions and proves the spec's
claims about them.

Conventions of the embedding:
* machine integers are `Nat`/`Int` with explicit `% 2 ^ 32` where overflow
  matters;
* the storage directory is a `List DirEntry` in enumeration order; file
  contents are `String`s;
* `JSON.parse`/`JSON.stringify(·, null, 2)` are modelled by an executable
  codec over a JSON syntax tree whose numbers are integers (JavaScript float
  formatting is out of scope of the shallow embedding);
* fallible operations return `Option`/`Except`.
-/

namespace SessionContext

/-! ## 32-bit arithmetic over `Nat` -/

/-- Addition modulo `2 ^ 32`. -/
def add32 (x y : Nat) : Nat := (x + y) % 4294967296

/-- Right rotation of a 32-bit word. -/
def rotr32 (n x : Nat) : Nat := ((x >>> n) ||| (x <<< (32 - n))) % 4294967296

/-- Bitwise complement of a 32-bit word (valid for `x < 2 ^ 32`). -/
def not32 (x : Nat) : Nat := 4294967295 - x

/-! ## SHA-256 (FIPS 180-4), the hash behind `getProjectHash`

The TypeScript source computes
`createHash("sha256").update(projectRoot).digest("hex").slice(0, 8)`
(Bun variant: `new Bun.CryptoHasher("sha256")` with the same digest);
both hash the UTF-8 bytes of the path with SHA-256.  The implementation
below is translated from the FIPS 180-4 description and is validated by
the standard test vector in the theorem for claim C8. -/

/-- SHA-256 compression state: eight 32-bit working words. -/
structure Hash8 where
  a : Nat
  b : Nat
  c : Nat
  d : Nat
  e : Nat
  f : Nat
  g : Nat
  h : Nat

/-- SHA-256 initial hash value. -/
def initHash : Hash8 :=
  ⟨1779033703, 3144134277, 1013904242, 2773480762,
   1359893119, 2600822924, 528734635, 1541459225⟩

/-- The 64 SHA-256 round constants. -/
def K256 : List Nat :=
  [1116352408, 1899447441, 3049323471, 3921009573, 961987163,
   1508970993, 2453635748, 2870763221, 3624381080, 310598401,
   607225278, 1426881987, 1925078388, 2162078206, 2614888103,
   3248222580, 3835390401, 4022224774, 264347078, 604807628,
   770255983, 1249150122, 1555081692, 1996064986, 2554220882,
   2821834349, 2952996808, 3210313671, 3336571891, 3584528711,
   113926993, 338241895, 666307205, 773529912, 1294757372,
   1396182291, 1695183700, 1986661051, 2177026350, 2456956037,
   2730485921, 2820302411, 3259730800, 3345764771, 3516065817,
   3600352804, 4094571909, 275423344, 430227734, 506948616,
   659060556, 883997877, 958139571, 1322822218, 1537002063,
   1747873779, 1955562222, 2024104815, 2227730452, 2361852424,
   2428436474, 2756734187, 3204031479, 3329325298]

/-- Function `Ch(x, y, z)` of FIPS 180-4. -/
def chFn (x y z : Nat) : Nat := (x &&& y) ^^^ (not32 x &&& z)

/-- Function `Maj(x, y, z)` of FIPS 180-4. -/
def majFn (x y z : Nat) : Nat := (x &&& y) ^^^ (x &&& z) ^^^ (y &&& z)

/-- Function `Σ₀` of FIPS 180-4. -/
def bigSigma0 (x : Nat) : Nat := rotr32 2 x ^^^ rotr32 13 x ^^^ rotr32 22 x

/-- Function `Σ₁` of FIPS 180-4. -/
def bigSigma1 (x : Nat) : Nat := rotr32 6 x ^^^ rotr32 11 x ^^^ rotr32 25 x

/-- Function `σ₀` of FIPS 180-4. -/
def smallSigma0 (x : Nat) : Nat := rotr32 7 x ^^^ rotr32 18 x ^^^ (x >>> 3)

/-- Function `σ₁` of FIPS 180-4. -/
def smallSigma1 (x : Nat) : Nat := rotr32 17 x ^^^ rotr32 19 x ^^^ (x >>> 10)

/-- Word `i` of a schedule, defaulting to 0 out of range. -/
def wordAt (ws : List Nat) (i : Nat) : Nat := ws.getD i 0

/-- Extend a 16-word block schedule by `k` further words (FIPS 180-4, 6.2.2 step 1). -/
def extendW : Nat → List Nat → List Nat
  | 0, ws => ws
  | k + 1, ws =>
    let n := ws.length
    let w := add32 (add32 (smallSigma1 (wordAt ws (n - 2))) (wordAt ws (n - 7)))
      (add32 (smallSigma0 (wordAt ws (n - 15))) (wordAt ws (n - 16)))
    extendW k (ws ++ [w])

/-- One SHA-256 round (FIPS 180-4, 6.2.2 step 3). -/
def roundStep (st : Hash8) (kw : Nat × Nat) : Hash8 :=
  let t1 := add32 st.h (add32 (bigSigma1 st.e) (add32 (chFn st.e st.f st.g) (add32 kw.1 kw.2)))
  let t2 := add32 (bigSigma0 st.a) (majFn st.a st.b st.c)
  ⟨add32 t1 t2, st.a, st.b, st.c, add32 st.d t1, st.e, st.f, st.g⟩

/-- Big-endian bytes (most significant first), `k` bytes wide. -/
def toBytesBE : Nat → Nat → List Nat
  | 0, _ => []
  | k + 1, n => ((n >>> (8 * k)) % 256) :: toBytesBE k n

/-- Group the first `4 * k` bytes of a list into `k` big-endian 32-bit words. -/
def bytesToWords : Nat → List Nat → List Nat
  | 0, _ => []
  | k + 1, bs =>
    (bs.getD 0 0 * 16777216 + bs.getD 1 0 * 65536 + bs.getD 2 0 * 256 + bs.getD 3 0)
      :: bytesToWords k (bs.drop 4)

/-- SHA-256 message padding (FIPS 180-4, 5.1.1). -/
def shaPad (msg : List Nat) : List Nat :=
  msg ++ 128 :: List.replicate ((119 - msg.length % 64) % 64) 0
    ++ toBytesBE 8 (msg.length * 8)

/-- Split a padded message into `k` blocks of 64 bytes. -/
def chunks64 : Nat → List Nat → List (List Nat)
  | 0, _ => []
  | k + 1, l => l.take 64 :: chunks64 k (l.drop 64)

/-- Compress one 64-byte block into the running state. -/
def compressBlock (st : Hash8) (block : List Nat) : Hash8 :=
  let ws := extendW 48 (bytesToWords 16 block)
  let s := (K256.zip ws).foldl roundStep st
  ⟨add32 st.a s.a, add32 st.b s.b, add32 st.c s.c, add32 st.d s.d,
   add32 st.e s.e, add32 st.f s.f, add32 st.g s.g, add32 st.h s.h⟩

/-- SHA-256 of a byte sequence, as the eight final state words. -/
def sha256Words (msg : List Nat) : Hash8 :=
  (chunks64 ((shaPad msg).length / 64) (shaPad msg)).foldl compressBlock initHash

/-- Fixed-width lowercase hex rendering of a `Nat`, `d` nibbles, most significant first. -/
def toHexFixed : Nat → Nat → List Char
  | 0, _ => []
  | d + 1, n => Nat.digitChar (n / 16 ^ d % 16) :: toHexFixed d n

/-- The 64-character lowercase hex digest of SHA-256 (`digest("hex")`). -/
def sha256Hex (msg : List Nat) : List Char :=
  let s := sha256Words msg
  toHexFixed 8 s.a ++ toHexFixed 8 s.b ++ toHexFixed 8 s.c ++ toHexFixed 8 s.d
    ++ toHexFixed 8 s.e ++ toHexFixed 8 s.f ++ toHexFixed 8 s.g ++ toHexFixed 8 s.h

/-- UTF-8 encoding of one scalar value (RFC 3629), as `Nat` bytes. -/
def utf8Bytes (c : Char) : List Nat :=
  let n := c.toNat
  if n < 128 then [n]
  else if n < 2048 then [192 + n / 64, 128 + n % 64]
  else if n < 65536 then [224 + n / 4096, 128 + n / 64 % 64, 128 + n % 64]
  else [240 + n / 262144, 128 + n / 4096 % 64, 128 + n / 64 % 64, 128 + n % 64]

/-- UTF-8 bytes of a string (`update(projectRoot)` hashes these). -/
def utf8Encode (s : String) : List Nat := (s.toList.map utf8Bytes).flatten

/-- The function `getProjectHash`, from `src/mcp/convert_to_bun.py` (both the node and the
Bun variant):
`createHash("sha256").update(projectRoot).digest("hex").slice(0, 8)`. -/
def getProjectHash (projectRoot : String) : String :=
  ⟨(sha256Hex (utf8Encode projectRoot)).take 8⟩

/-! ## JSON documents

`Handoff` values are the JSON documents produced by `JSON.parse`; the store
interprets only `project.hash` and `updated` and treats the rest as opaque
payload.  The syntax tree below models JSON documents whose numbers are
integers (JavaScript float formatting/parsing is outside the shallow
embedding).  Arrays and objects are first-class mutual inductives so that
every function on them is structurally recursive and kernel-evaluable. -/

mutual
inductive Json : Type where
  | null : Json
  | bool (b : Bool) : Json
  | num (n : Int) : Json
  | str (s : String) : Json
  | arr (xs : JArr) : Json
  | obj (fs : JObj) : Json
inductive JArr : Type where
  | nil : JArr
  | cons (hd : Json) (tl : JArr) : JArr
inductive JObj : Type where
  | nil : JObj
  | cons (key : String) (val : Json) (tl : JObj) : JObj
end

/-! ### Character classes -/

/-- JSON insignificant whitespace (space, newline, tab, carriage return). -/
def isWsChar (c : Char) : Bool :=
  c.toNat == 32 || c.toNat == 10 || c.toNat == 9 || c.toNat == 13

/-- Drop insignificant whitespace. -/
def skipWs (cs : List Char) : List Char := cs.dropWhile isWsChar

/-- ASCII decimal digit. -/
def isDigitChar (c : Char) : Bool := 48 ≤ c.toNat && c.toNat ≤ 57

/-- Value of an ASCII decimal digit. -/
def digitVal (c : Char) : Nat := c.toNat - 48

/-- Digits to a number, most significant first. -/
def digitsToNat (ds : List Char) : Nat := ds.foldl (fun a c => a * 10 + digitVal c) 0

/-- ASCII hex digit (either case), as accepted in `\uXXXX` escapes. -/
def isHexDigitChar (c : Char) : Bool :=
  isDigitChar c || (97 ≤ c.toNat && c.toNat ≤ 102) || (65 ≤ c.toNat && c.toNat ≤ 70)

/-- Value of an ASCII hex digit. -/
def hexVal (c : Char) : Nat :=
  if c.toNat ≤ 57 then c.toNat - 48 else if c.toNat ≤ 70 then c.toNat - 55 else c.toNat - 87

/-- Lowercase hex digit, the alphabet of `digest("hex")` and of the
`/^[a-f0-9]{8}\./` filename pattern. -/
def isLowerHexChar (c : Char) : Bool :=
  isDigitChar c || (97 ≤ c.toNat && c.toNat ≤ 102)

/-- The first character, if any, is not a digit (so a digit run before the
list is maximal). -/
def noDigitHead : List Char → Prop
  | [] => True
  | c :: _ => isDigitChar c = false

/-- The character `{` (spelled via its code point). -/
def lbrace : Char := Char.ofNat 123

/-- The character `}` (spelled via its code point). -/
def rbrace : Char := Char.ofNat 125

/-! ### Serialization: `JSON.stringify(handoff, null, 2)` -/

/-- Fixed-width decimal digits of a `Nat` (fuel-based, most significant first). -/
def natCharsAux : Nat → Nat → List Char
  | 0, _ => []
  | fuel + 1, n =>
    if n < 10 then [Nat.digitChar n]
    else natCharsAux fuel (n / 10) ++ [Nat.digitChar (n % 10)]

/-- Decimal digits of a `Nat`. -/
def natChars (n : Nat) : List Char := natCharsAux (n + 1) n

/-- Decimal rendering of an `Int`, as `JSON.stringify` renders integral numbers. -/
def intChars (n : Int) : List Char :=
  if n < 0 then '-' :: natChars n.natAbs else natChars n.natAbs

/-- Escaping of one character inside a string literal, as `JSON.stringify` does it. -/
def escChar (c : Char) : List Char :=
  if c = '"' then ['\\', '"']
  else if c = '\\' then ['\\', '\\']
  else if c = '\n' then ['\\', 'n']
  else if c = '\r' then ['\\', 'r']
  else if c = '\t' then ['\\', 't']
  else if c = Char.ofNat 8 then ['\\', 'b']
  else if c = Char.ofNat 12 then ['\\', 'f']
  else if c.toNat < 32 then
    ['\\', 'u', '0', '0', Nat.digitChar (c.toNat / 16), Nat.digitChar (c.toNat % 16)]
  else [c]

/-- A JSON string literal with its quotes. -/
def strLit (s : String) : List Char := '"' :: (s.toList.map escChar).flatten ++ ['"']

/-- Exactly `n` spaces, the two-space-per-level indentation of `JSON.stringify(·, null, 2)`. -/
def indentChars (n : Nat) : List Char := List.replicate n ' '

mutual
/-- Pretty printing of a value at indentation `ind`, the exact layout of
`JSON.stringify(value, null, 2)` restricted to integer numbers. -/
def ppVal : Nat → Json → List Char
  | _, .null => ['n', 'u', 'l', 'l']
  | _, .bool true => ['t', 'r', 'u', 'e']
  | _, .bool false => ['f', 'a', 'l', 's', 'e']
  | _, .num n => intChars n
  | _, .str s => strLit s
  | _, .arr .nil => ['[', ']']
  | ind, .arr (.cons x xs) =>
    '[' :: '\n' :: (ppItems (ind + 2) (.cons x xs) ++ '\n' :: (indentChars ind ++ [']']))
  | _, .obj .nil => [lbrace, rbrace]
  | ind, .obj (.cons k v fs) =>
    lbrace :: '\n' :: (ppFields (ind + 2) (.cons k v fs) ++ '\n' :: (indentChars ind ++ [rbrace]))
/-- Comma-and-newline separated array items, each on its own indented line. -/
def ppItems : Nat → JArr → List Char
  | _, .nil => []
  | ind, .cons x .nil => indentChars ind ++ ppVal ind x
  | ind, .cons x (.cons y ys) =>
    indentChars ind ++ ppVal ind x ++ ',' :: '\n' :: ppItems ind (.cons y ys)
/-- Comma-and-newline separated object fields, each `"key": value` on its own line. -/
def ppFields : Nat → JObj → List Char
  | _, .nil => []
  | ind, .cons k v .nil => indentChars ind ++ strLit k ++ ':' :: ' ' :: ppVal ind v
  | ind, .cons k v (.cons k2 v2 fs) =>
    indentChars ind ++ strLit k ++ ':' :: ' ' :: ppVal ind v
      ++ ',' :: '\n' :: ppFields ind (.cons k2 v2 fs)
end

/-- The serialization `JSON.stringify(handoff, null, 2)`, as written by `writeHandoff`. -/
def stringify2 (h : Json) : String := ⟨ppVal 0 h⟩

/-! ### Parsing: `JSON.parse`

Modelled from ECMA-404/`JSON.parse` with two restrictions recorded in the
module docstring: numbers are integer-valued (no fraction/exponent) and
`\uXXXX` escapes must denote Unicode scalar values (JavaScript's lone
surrogates have no counterpart in Lean's `String`). -/

/-- Parse the body of a string literal after the opening quote; `acc` holds
the already-read characters in reverse. -/
def parseStrAux : List Char → List Char → Option (String × List Char)
  | _, [] => none
  | acc, c :: cs =>
    if c = '"' then some (⟨acc.reverse⟩, cs)
    else if c = '\\' then
      match cs with
      | [] => none
      | e :: cs2 =>
        if e = '"' then parseStrAux ('"' :: acc) cs2
        else if e = '\\' then parseStrAux ('\\' :: acc) cs2
        else if e = '/' then parseStrAux ('/' :: acc) cs2
        else if e = 'n' then parseStrAux ('\n' :: acc) cs2
        else if e = 'r' then parseStrAux ('\r' :: acc) cs2
        else if e = 't' then parseStrAux ('\t' :: acc) cs2
        else if e = 'b' then parseStrAux (Char.ofNat 8 :: acc) cs2
        else if e = 'f' then parseStrAux (Char.ofNat 12 :: acc) cs2
        else if e = 'u' then
          match cs2 with
          | h1 :: h2 :: h3 :: h4 :: r =>
            if isHexDigitChar h1 && isHexDigitChar h2 && isHexDigitChar h3
                && isHexDigitChar h4 then
              let n := hexVal h1 * 4096 + hexVal h2 * 256 + hexVal h3 * 16 + hexVal h4
              if n < 55296 || 57344 ≤ n then parseStrAux (Char.ofNat n :: acc) r else none
            else none
          | _ => none
        else none
    else if c.toNat < 32 then none
    else parseStrAux (c :: acc) cs

mutual
/-- Parse one JSON value (fuel-based recursion; the fuel bounds nesting). -/
def parseVal : Nat → List Char → Option (Json × List Char)
  | 0, _ => none
  | fuel + 1, cs =>
    match skipWs cs with
    | [] => none
    | c :: r =>
      if c = 'n' then
        match r with
        | 'u' :: 'l' :: 'l' :: r' => some (.null, r')
        | _ => none
      else if c = 't' then
        match r with
        | 'r' :: 'u' :: 'e' :: r' => some (.bool true, r')
        | _ => none
      else if c = 'f' then
        match r with
        | 'a' :: 'l' :: 's' :: 'e' :: r' => some (.bool false, r')
        | _ => none
      else if c = '"' then
        match parseStrAux [] r with
        | some (s, r') => some (.str s, r')
        | none => none
      else if c = '[' then
        match parseItems fuel r with
        | some (xs, r') => some (.arr xs, r')
        | none => none
      else if c = lbrace then
        match parseFields fuel r with
        | some (fs, r') => some (.obj fs, r')
        | none => none
      else if c = '-' then
        match r.takeWhile isDigitChar with
        | [] => none
        | ds => some (.num (-(digitsToNat ds : Int)), r.dropWhile isDigitChar)
      else if isDigitChar c then
        some (.num (digitsToNat ((c :: r).takeWhile isDigitChar)),
          (c :: r).dropWhile isDigitChar)
      else none
/-- Parse the items of an array after the opening bracket. -/
def parseItems : Nat → List Char → Option (JArr × List Char)
  | 0, _ => none
  | fuel + 1, cs =>
    match skipWs cs with
    | [] => none
    | c :: r =>
      if c = ']' then some (.nil, r)
      else
        match parseVal fuel (c :: r) with
        | some (v, r1) =>
          match skipWs r1 with
          | [] => none
          | c2 :: r2 =>
            if c2 = ',' then
              match parseItems fuel r2 with
              | some (tl, r3) => some (.cons v tl, r3)
              | none => none
            else if c2 = ']' then some (.cons v .nil, r2)
            else none
        | none => none
/-- Parse the fields of an object after the opening brace. -/
def parseFields : Nat → List Char → Option (JObj × List Char)
  | 0, _ => none
  | fuel + 1, cs =>
    match skipWs cs with
    | [] => none
    | c :: r =>
      if c = rbrace then some (.nil, r)
      else if c = '"' then
        match parseStrAux [] r with
        | some (k, r1) =>
          match skipWs r1 with
          | [] => none
          | c2 :: r2 =>
            if c2 = ':' then
              match parseVal fuel r2 with
              | some (v, r3) =>
                match skipWs r3 with
                | [] => none
                | c3 :: r4 =>
                  if c3 = ',' then
                    match parseFields fuel r4 with
                    | some (fs, r5) => some (.cons k v fs, r5)
                    | none => none
                  else if c3 = rbrace then some (.cons k v .nil, r4)
                  else none
              | none => none
            else none
        | none => none
      else none
end

/-- Parsing `JSON.parse(content)`: parse a whole document, allowing only trailing
whitespace.  `none` models the thrown `SyntaxError`. -/
def parseJson (s : String) : Option Json :=
  match parseVal (s.toList.length + 1) s.toList with
  | some (v, r) => if skipWs r = [] then some v else none
  | none => none

/-! ## Timestamps: `new Date(handoff.updated).getTime()`

Modelled from the spec: `updated` is "a timestamp (ISO-8601 or equivalent
sortable representation)".  The model covers the timezone-free ISO-8601
forms `YYYY-MM-DD`, `YYYY-MM-DDTHH:MM:SSZ` and `YYYY-MM-DDTHH:MM:SS.sssZ`
(the forms whose `Date.parse` value does not depend on the host timezone)
and maps them to Unix epoch milliseconds exactly as ECMAScript does; every
other string is treated like an invalid date (`NaN`), modelled as `none`. -/

/-- Two ASCII digits to a number. -/
def toN2 (a b : Char) : Option Nat :=
  if isDigitChar a && isDigitChar b then some (digitVal a * 10 + digitVal b) else none

/-- Three ASCII digits to a number. -/
def toN3 (a b c : Char) : Option Nat :=
  if isDigitChar a && isDigitChar b && isDigitChar c then
    some (digitVal a * 100 + digitVal b * 10 + digitVal c)
  else none

/-- Four ASCII digits to a number. -/
def toN4 (a b c d : Char) : Option Nat :=
  if isDigitChar a && isDigitChar b && isDigitChar c && isDigitChar d then
    some (digitVal a * 1000 + digitVal b * 100 + digitVal c * 10 + digitVal d)
  else none

/-- Gregorian leap year. -/
def isLeapYear (y : Nat) : Bool := y % 4 == 0 && (y % 100 != 0 || y % 400 == 0)

/-- Length of a month. -/
def daysInMonth (y m : Nat) : Nat :=
  if m = 2 then (if isLeapYear y then 29 else 28)
  else if m = 4 ∨ m = 6 ∨ m = 9 ∨ m = 11 then 30
  else 31

/-- Days since 0000-03-01 of a civil date (valid for `1 ≤ y`). -/
def civilDays (y m d : Nat) : Nat :=
  let y' := if m ≤ 2 then y - 1 else y
  y' * 365 + y' / 4 - y' / 100 + y' / 400
    + (153 * (if m ≤ 2 then m + 9 else m - 3) + 2) / 5 + (d - 1)

/-- Epoch milliseconds of a validated UTC date-time; `none` on any
out-of-range component (an invalid `Date`). -/
def ymdMillis (y m d hh mi ss ms : Nat) : Option Int :=
  if 1 ≤ y && 1 ≤ m && m ≤ 12 && 1 ≤ d && d ≤ daysInMonth y m
      && hh ≤ 23 && mi ≤ 59 && ss ≤ 59 then
    some (((civilDays y m d : Int) - 719468) * 86400000
      + hh * 3600000 + mi * 60000 + ss * 1000 + ms)
  else none

/-- Parsing `Date.parse` style on the supported UTC ISO-8601 forms, in epoch milliseconds. -/
def parseDateMillis (s : String) : Option Int :=
  match s.toList with
  | [y1, y2, y3, y4, '-', m1, m2, '-', d1, d2] =>
    match toN4 y1 y2 y3 y4, toN2 m1 m2, toN2 d1 d2 with
    | some y, some m, some d => ymdMillis y m d 0 0 0 0
    | _, _, _ => none
  | [y1, y2, y3, y4, '-', m1, m2, '-', d1, d2, 'T', h1, h2, ':', i1, i2, ':', s1, s2, 'Z'] =>
    match toN4 y1 y2 y3 y4, toN2 m1 m2, toN2 d1 d2, toN2 h1 h2, toN2 i1 i2, toN2 s1 s2 with
    | some y, some m, some d, some hh, some mi, some ss => ymdMillis y m d hh mi ss 0
    | _, _, _, _, _, _ => none
  | [y1, y2, y3, y4, '-', m1, m2, '-', d1, d2, 'T', h1, h2, ':', i1, i2, ':', s1, s2,
      '.', f1, f2, f3, 'Z'] =>
    match toN4 y1 y2 y3 y4, toN2 m1 m2, toN2 d1 d2, toN2 h1 h2, toN2 i1 i2, toN2 s1 s2,
        toN3 f1 f2 f3 with
    | some y, some m, some d, some hh, some mi, some ss, some ms => ymdMillis y m d hh mi ss ms
    | _, _, _, _, _, _, _ => none
  | _ => none

/-! ## Reading the two interpreted fields of a record -/

/-- Property lookup on an object; on duplicate keys `JSON.parse` keeps the
last occurrence, so the last binding wins. -/
def lookupLast (k : String) : JObj → Option Json
  | .nil => none
  | .cons key v tl =>
    match lookupLast k tl with
    | some r => some r
    | none => if key = k then some v else none

/-- Property access `value.field` on a parsed document; `none` covers both
JavaScript outcomes that make the caller skip (an `undefined` access and a
thrown `TypeError` on `null`/`undefined` bases). -/
def getFieldJ (j : Json) (k : String) : Option Json :=
  match j with
  | .obj fs => lookupLast k fs
  | _ => none

/-- The string at `handoff.project.hash` (the only case on which the
comparison `handoff.project.hash === hash` can succeed). -/
def projectHashOf (j : Json) : Option String :=
  match getFieldJ j "project" with
  | some p =>
    match getFieldJ p "hash" with
    | some (.str h) => some h
    | _ => none
  | none => none

/-- The value `new Date(handoff.updated).getTime()` as an optional integer: a string
is parsed as a date, a number is taken as epoch milliseconds when within
the ECMAScript `Date` range, and anything else is an invalid date (`NaN`,
modelled as `none`). -/
def updatedKeyOf (j : Json) : Option Int :=
  match getFieldJ j "updated" with
  | some (.str s) => parseDateMillis s
  | some (.num n) => if n.natAbs ≤ 8640000000000000 then some n else none
  | _ => none

/-! ## The handoff store

The storage directory is a list of named entries in enumeration order
(`readdir`).  `listHandoffs` below is translated from the replacement body
in `src/mcp/optimize_listHandoffs.py` lines 42-84. -/

/-- A directory entry: a filename and the file's content. -/
structure DirEntry where
  name : String
  content : String

/-- Whether `pat` is a prefix of `l` (character lists). -/
def chHasPre : List Char → List Char → Bool
  | [], _ => true
  | _ :: _, [] => false
  | p :: ps, c :: cs => p == c && chHasPre ps cs

/-- The test `file.startsWith(pat)`. -/
def strStarts (s pat : String) : Bool := chHasPre pat.toList s.toList

/-- The test `file.endsWith(pat)`. -/
def strEnds (s pat : String) : Bool := chHasPre pat.toList.reverse s.toList.reverse

/-- The anchored regex test `file.match(/^[a-f0-9]{8}\./)`: eight lowercase
hex characters followed by a literal dot. -/
def hexDotStart (cs : List Char) : Bool :=
  ((cs.take 8).all isLowerHexChar && (cs.take 8).length == 8)
    && ((cs.drop 8).take 1 == ['.'])

/-- The filename filter of the `listHandoffs` loop: keep `.json` files,
skip rolling checkpoints (`-current.json`), and skip new-format files of
other projects (`!isNewFormat && /^[a-f0-9]{8}\./`) without opening them. -/
def keepName (hash name : String) : Bool :=
  strEnds name ".json" && !strEnds name "-current.json"
    && (strStarts name (hash ++ ".") || !hexDotStart name.toList)

/-- The body of the `for (const file of files)` loop of `listHandoffs`:
name-filter each entry, parse survivors (`catch`: skip invalid files), and
keep records with `handoff.project.hash === hash`. -/
def collect (hash : String) : List DirEntry → List Json
  | [] => []
  | e :: es =>
    if keepName hash e.name then
      match parseJson e.content with
      | some j => if projectHashOf j == some hash then j :: collect hash es else collect hash es
      | none => collect hash es
    else collect hash es

/-- The comparator `(a, b) => new Date(b.updated).getTime() - new Date(a.updated).getTime()`
returned a negative number (`a` strictly more recent): both dates are valid
and `a`'s is larger.  `NaN` comparisons (the `false` branches) are modelled
as ties, which a stable sort leaves in place. -/
def keyGT (a b : Json) : Bool :=
  match updatedKeyOf a, updatedKeyOf b with
  | some x, some y => y < x
  | _, _ => false

/-- Stable insertion of `x` into a descending-sorted list: `x` goes before
the first strictly-older element, after every tie. -/
def insertDesc (x : Json) : List Json → List Json
  | [] => [x]
  | y :: ys => if keyGT x y then x :: y :: ys else y :: insertDesc x ys

/-- The sort `handoffs.sort(comparator)`: a stable sort (ECMAScript 2019
`Array.prototype.sort` is specified stable) by `updated` descending. -/
def sortByUpdatedDesc (l : List Json) : List Json :=
  l.foldl (fun acc x => insertDesc x acc) []

/-- The loop `listHandoffs(projectRoot)` on a successfully enumerated storage
directory, from `src/mcp/optimize_listHandoffs.py` lines 42-84. -/
def listHandoffs (projectRoot : String) (dir : List DirEntry) : List Json :=
  sortByUpdatedDesc (collect (getProjectHash projectRoot) dir)

/-! ## Single-record read and write

`readHandoff`/`writeHandoff` live in `src/storage/handoffs.ts`; the
conversion script `src/mcp/convert_to_bun.py` lines 42-53 carries their
bodies.  The filesystem is an association list from path to content; a
write shadows earlier bindings (overwrite at that exact path). -/

/-- A filesystem state: paths mapped to contents, most recent first. -/
abbrev FileSys := List (String × String)

/-- Content at a path. -/
def lookupFile (fs : FileSys) (p : String) : Option String :=
  match fs with
  | [] => none
  | (q, c) :: tl => if q = p then some c else lookupFile tl p

/-- A primitive filesystem operation, for stating how `writeHandoff`
writes: one direct write, or a rename as the spec's temp-file scheme
would require. -/
inductive FsOp where
  | write (path content : String)
  | rename (src dst : String)

/-- Effect of one operation on the filesystem. -/
def applyFsOp (fs : FileSys) : FsOp → FileSys
  | .write p c => (p, c) :: fs
  | .rename a b =>
    match lookupFile fs a with
    | some c => (b, c) :: fs.filter (fun e => e.1 != a)
    | none => fs

/-- Run a sequence of operations. -/
def runFsOps (fs : FileSys) (ops : List FsOp) : FileSys := ops.foldl applyFsOp fs

/-- The write `writeHandoff(path, handoff)` as the operations it performs:
`await Bun.write(path, JSON.stringify(handoff, null, 2))` (node variant:
`await writeFile(path, JSON.stringify(handoff, null, 2), "utf-8")`) — a
single direct write of the serialized record to the destination path,
from `src/mcp/convert_to_bun.py` lines 49-53. -/
def writeHandoff (path : String) (h : Json) : List FsOp :=
  [.write path (stringify2 h)]

/-- The error a present-but-unparsable record raises. -/
inductive CorruptRecordError where
  | corrupt

/-- The read `readHandoff(path)`: the converted body (`src/mcp/convert_to_bun.py`
lines 42-46) returns `null` when the file does not exist and otherwise
parses it (`Bun.file(path).json()`).  Modelled from the spec: the
enclosing function in `src/storage/handoffs.ts` is not part of the
snapshot; per the spec a parse failure is surfaced to the caller as a
`CorruptRecordError` rather than caught. -/
def readHandoff (path : String) (fs : FileSys) : Except CorruptRecordError (Option Json) :=
  match lookupFile fs path with
  | none => .ok none
  | some c =>
    match parseJson c with
    | some j => .ok (some j)
    | none => .error .corrupt

/-! ## Auxiliary definitions used by the proofs -/

mutual
/-- Node count of a document, a bound for the parser's fuel. -/
def szVal : Json → Nat
  | .null => 1
  | .bool _ => 1
  | .num _ => 1
  | .str _ => 1
  | .arr xs => 1 + szArr xs
  | .obj fs => 1 + szObj fs
/-- Node count of an array. -/
def szArr : JArr → Nat
  | .nil => 1
  | .cons x xs => 1 + szVal x + szArr xs
/-- Node count of an object. -/
def szObj : JObj → Nat
  | .nil => 1
  | .cons _ v fs => 1 + szVal v + szObj fs
end

/-- One step of the `listHandoffs` loop as a partial map on entries:
`collect` is its `filterMap`. -/
def keepEntry (hash : String) (e : DirEntry) : Option Json :=
  if keepName hash e.name then
    match parseJson e.content with
    | some j => if projectHashOf j == some hash then some j else none
    | none => none
  else none

/-! ## Concrete directories used by witnesses and counterexamples

`getProjectHash "/repo/a"` is `"059ba6b9"` (first 8 hex characters of the
SHA-256 of `/repo/a`); the records below carry that hash in their
`project.hash` field. -/

/-- A record of project `/repo/a` updated on 2024-01-01. -/
def recJan : String :=
  "\x7b\"project\": \x7b\"hash\": \"059ba6b9\"\x7d, \"updated\": \"2024-01-01\"\x7d"

/-- A record of project `/repo/a` updated on 2024-02-01. -/
def recFeb : String :=
  "\x7b\"project\": \x7b\"hash\": \"059ba6b9\"\x7d, \"updated\": \"2024-02-01\"\x7d"

/-- A record of project `/repo/a` updated on 2024-03-01. -/
def recMar : String :=
  "\x7b\"project\": \x7b\"hash\": \"059ba6b9\"\x7d, \"updated\": \"2024-03-01\"\x7d"

/-- The parsed form of `recJan`. -/
def jsonJan : Json :=
  .obj (.cons "project" (.obj (.cons "hash" (.str "059ba6b9") .nil))
    (.cons "updated" (.str "2024-01-01") .nil))

/-- The parsed form of `recFeb`. -/
def jsonFeb : Json :=
  .obj (.cons "project" (.obj (.cons "hash" (.str "059ba6b9") .nil))
    (.cons "updated" (.str "2024-02-01") .nil))

/-- The parsed form of `recMar`. -/
def jsonMar : Json :=
  .obj (.cons "project" (.obj (.cons "hash" (.str "059ba6b9") .nil))
    (.cons "updated" (.str "2024-03-01") .nil))

/-- A directory holding three legacy-named records of `/repo/a` in
non-chronological enumeration order (the spec's sort example). -/
def exDir : List DirEntry :=
  [⟨"a.json", recJan⟩, ⟨"b.json", recMar⟩, ⟨"c.json", recFeb⟩]

/-- A directory whose only file has a new-format-shaped name of another
project (`00000000` is not `getProjectHash "/repo/a"`) but content that
belongs to `/repo/a`. -/
def cexDir : List DirEntry :=
  [⟨"00000000.x.json", "\x7b\"project\": \x7b\"hash\": \"059ba6b9\"\x7d\x7d"⟩]

/-- The parsed content of the single `cexDir` file. -/
def cexJson : Json :=
  .obj (.cons "project" (.obj (.cons "hash" (.str "059ba6b9") .nil)) .nil)

/-! ## Lemmas about the project identifier -/

theorem toHexFixed_length (d n : Nat) : (toHexFixed d n).length = d := by
  induction d generalizing n with
  | zero => rfl
  | succ d ih => simp [toHexFixed, ih]

theorem digitChar_mod16_isLowerHex (k : Nat) :
    isLowerHexChar (Nat.digitChar (k % 16)) = true := by
  have h : k % 16 < 16 := Nat.mod_lt _ (by norm_num)
  set m := k % 16 with hm
  interval_cases m <;> rfl

theorem toHexFixed_all_hex (d n : Nat) :
    ∀ c ∈ toHexFixed d n, isLowerHexChar c = true := by
  induction d generalizing n with
  | zero => intro c hc; simp [toHexFixed] at hc
  | succ d ih =>
    intro c hc
    simp only [toHexFixed, List.mem_cons] at hc
    rcases hc with rfl | hc
    · exact digitChar_mod16_isLowerHex _
    · exact ih n c hc

theorem take8_sha256Hex (m : List Nat) :
    (sha256Hex m).take 8 = toHexFixed 8 (sha256Words m).a := by
  show (toHexFixed 8 (sha256Words m).a ++ _ ++ _ ++ _ ++ _ ++ _ ++ _ ++ _).take 8 = _
  simp only [List.append_assoc]
  exact List.take_left' (toHexFixed_length 8 _)

theorem getProjectHash_toList (s : String) :
    (getProjectHash s).toList = toHexFixed 8 (sha256Words (utf8Encode s)).a := by
  show (sha256Hex (utf8Encode s)).take 8 = _
  exact take8_sha256Hex _

theorem getProjectHash_length (s : String) : (getProjectHash s).toList.length = 8 := by
  rw [getProjectHash_toList]; exact toHexFixed_length 8 _

theorem getProjectHash_all_hex (s : String) :
    ∀ c ∈ (getProjectHash s).toList, isLowerHexChar c = true := by
  rw [getProjectHash_toList]; exact toHexFixed_all_hex 8 _

/-! ## Lemmas about the `listHandoffs` loop -/

theorem collect_eq_filterMap (hash : String) (dir : List DirEntry) :
    collect hash dir = dir.filterMap (keepEntry hash) := by
  induction dir with
  | nil => rfl
  | cons e es ih =>
    simp only [collect, keepEntry, List.filterMap_cons]
    by_cases hk : keepName hash e.name
    · simp only [hk, if_true]
      cases hp : parseJson e.content with
      | none => simpa using ih
      | some j =>
        by_cases hh : projectHashOf j == some hash
        · simp [hh, ih]
        · simp [hh, ih]
    · simp [hk, ih]

theorem collect_append (hash : String) (l₁ l₂ : List DirEntry) :
    collect hash (l₁ ++ l₂) = collect hash l₁ ++ collect hash l₂ := by
  simp [collect_eq_filterMap, List.filterMap_append]

theorem keepEntry_eq_some {hash : String} {e : DirEntry} {j : Json} :
    keepEntry hash e = some j ↔
      keepName hash e.name = true ∧ parseJson e.content = some j ∧
        projectHashOf j = some hash := by
  unfold keepEntry
  by_cases hk : keepName hash e.name
  · simp only [hk, if_true, true_and]
    cases hp : parseJson e.content with
    | none => simp
    | some j' =>
      by_cases hh : projectHashOf j' == some hash
      · have hh' := beq_iff_eq.mp hh
        simp only [hh, if_true]
        constructor
        · rintro h; cases h; exact ⟨rfl, hh'⟩
        · rintro ⟨h, _⟩; cases h; rfl
      · simp only [hh, if_neg, Bool.false_eq_true, if_false]
        constructor
        · rintro h; cases h
        · rintro ⟨h, hph⟩
          cases h
          exact absurd (beq_iff_eq.mpr hph) (by simpa using hh)
  · simp [hk]

theorem mem_collect {hash : String} {dir : List DirEntry} {j : Json} :
    j ∈ collect hash dir ↔
      ∃ e ∈ dir, keepName hash e.name = true ∧ parseJson e.content = some j ∧
        projectHashOf j = some hash := by
  rw [collect_eq_filterMap, List.mem_filterMap]
  constructor
  · rintro ⟨e, he, hk⟩; exact ⟨e, he, keepEntry_eq_some.mp hk⟩
  · rintro ⟨e, he, hk⟩; exact ⟨e, he, keepEntry_eq_some.mpr hk⟩

/-! ## Lemmas about the stable sort -/

theorem insertDesc_perm (x : Json) (l : List Json) :
    List.Perm (insertDesc x l) (x :: l) := by
  induction l with
  | nil => exact List.Perm.refl _
  | cons y ys ih =>
    by_cases h : keyGT x y = true
    · simp [insertDesc, h]
    · rw [insertDesc, if_neg (by simpa using h)]
      exact (ih.cons y).trans (List.Perm.swap x y ys)

theorem sortAux_perm (l : List Json) :
    ∀ acc : List Json,
      List.Perm (l.foldl (fun acc x => insertDesc x acc) acc) (acc ++ l) := by
  induction l with
  | nil => intro acc; simp
  | cons x xs ih =>
    intro acc
    refine (ih (insertDesc x acc)).trans ?_
    exact ((insertDesc_perm x acc).append_right xs).trans List.perm_middle.symm

theorem sortByUpdatedDesc_perm (l : List Json) :
    List.Perm (sortByUpdatedDesc l) l := by
  simpa using sortAux_perm l []

theorem mem_sortByUpdatedDesc {l : List Json} {j : Json} :
    j ∈ sortByUpdatedDesc l ↔ j ∈ l :=
  (sortByUpdatedDesc_perm l).mem_iff

theorem keyGT_irrefl (a : Json) : keyGT a a = false := by
  unfold keyGT
  cases updatedKeyOf a <;> simp

theorem keyGT_asymm {a b : Json} (h : keyGT a b = true) : keyGT b a = false := by
  unfold keyGT at h ⊢
  cases ha : updatedKeyOf a <;> cases hb : updatedKeyOf b <;>
    simp [ha, hb] at h ⊢ <;> omega

theorem keyGT_chain {x y z : Json} (h1 : keyGT x y = true) (h2 : keyGT z y = false) :
    keyGT z x = false := by
  unfold keyGT at h1 h2 ⊢
  cases hx : updatedKeyOf x <;> cases hy : updatedKeyOf y <;> cases hz : updatedKeyOf z <;>
    simp [hx, hy, hz] at h1 h2 ⊢ <;> omega

theorem mem_insertDesc {x b : Json} {l : List Json} :
    b ∈ insertDesc x l ↔ b = x ∨ b ∈ l := by
  rw [(insertDesc_perm x l).mem_iff, List.mem_cons]

theorem insertDesc_pairwise {x : Json} {l : List Json}
    (h : l.Pairwise (fun a b => keyGT b a = false)) :
    (insertDesc x l).Pairwise (fun a b => keyGT b a = false) := by
  induction l with
  | nil => simp [insertDesc]
  | cons y ys ih =>
    rw [List.pairwise_cons] at h
    obtain ⟨hy, hys⟩ := h
    by_cases hgt : keyGT x y = true
    · rw [insertDesc, if_pos hgt, List.pairwise_cons]
      refine ⟨?_, List.pairwise_cons.mpr ⟨hy, hys⟩⟩
      intro b hb
      rcases List.mem_cons.mp hb with rfl | hb'
      · exact keyGT_asymm hgt
      · exact keyGT_chain hgt (hy b hb')
    · rw [insertDesc, if_neg hgt, List.pairwise_cons]
      refine ⟨?_, ih hys⟩
      intro b hb
      rcases mem_insertDesc.mp hb with rfl | hb'
      · simpa using hgt
      · exact hy b hb'

theorem sortAux_pairwise (l : List Json) :
    ∀ acc : List Json, acc.Pairwise (fun a b => keyGT b a = false) →
      (l.foldl (fun acc x => insertDesc x acc) acc).Pairwise
        (fun a b => keyGT b a = false) := by
  induction l with
  | nil => intro acc h; exact h
  | cons x xs ih => intro acc h; exact ih _ (insertDesc_pairwise h)

theorem sortByUpdatedDesc_pairwise (l : List Json) :
    (sortByUpdatedDesc l).Pairwise (fun a b => keyGT b a = false) :=
  sortAux_pairwise l [] (List.Pairwise.nil)

theorem key_ne_of_chain {x y b : Json} {t : Int} (hx : updatedKeyOf x = some t)
    (h1 : keyGT x y = true) (h2 : keyGT b y = false) :
    (updatedKeyOf b == some t) = false := by
  unfold keyGT at h1 h2
  cases hy : updatedKeyOf y <;> cases hb : updatedKeyOf b <;>
    simp [hx, hy, hb] at h1 h2 ⊢ <;> omega

theorem insertDesc_filter_of_eq {x : Json} {l : List Json} {t : Int}
    (hl : l.Pairwise (fun a b => keyGT b a = false)) (hx : updatedKeyOf x = some t) :
    (insertDesc x l).filter (fun j => updatedKeyOf j == some t) =
      l.filter (fun j => updatedKeyOf j == some t) ++ [x] := by
  induction l with
  | nil => simp [insertDesc, List.filter, hx]
  | cons y ys ih =>
    rw [List.pairwise_cons] at hl
    obtain ⟨hy, hys⟩ := hl
    by_cases hgt : keyGT x y = true
    · rw [insertDesc, if_pos hgt]
      have hyt : (updatedKeyOf y == some t) = false :=
        key_ne_of_chain hx hgt (keyGT_irrefl y)
      have hrest : (y :: ys).filter (fun j => updatedKeyOf j == some t) = [] := by
        rw [List.filter_eq_nil_iff]
        intro b hb
        rcases List.mem_cons.mp hb with rfl | hb'
        · simp [hyt]
        · simp [key_ne_of_chain hx hgt (hy b hb')]
      have hxt : (updatedKeyOf x == some t) = true := beq_iff_eq.mpr hx
      rw [List.filter_cons, if_pos hxt, hrest, List.nil_append]
    · rw [insertDesc, if_neg hgt]
      by_cases hyt : (updatedKeyOf y == some t) = true
      · rw [List.filter_cons, List.filter_cons, if_pos hyt, if_pos hyt, ih hys,
          List.cons_append]
      · rw [List.filter_cons, List.filter_cons, if_neg hyt, if_neg hyt, ih hys]

theorem insertDesc_filter_of_ne {x : Json} {l : List Json} {t : Int}
    (hx : (updatedKeyOf x == some t) = false) :
    (insertDesc x l).filter (fun j => updatedKeyOf j == some t) =
      l.filter (fun j => updatedKeyOf j == some t) := by
  induction l with
  | nil => simp [insertDesc, List.filter, hx]
  | cons y ys ih =>
    by_cases hgt : keyGT x y = true
    · rw [insertDesc, if_pos hgt, List.filter_cons, if_neg (by simp [hx])]
    · rw [insertDesc, if_neg hgt]
      by_cases hyt : (updatedKeyOf y == some t) = true
      · rw [List.filter_cons, List.filter_cons, if_pos hyt, if_pos hyt, ih]
      · rw [List.filter_cons, List.filter_cons, if_neg hyt, if_neg hyt, ih]

theorem sortAux_filter (t : Int) (l : List Json) :
    ∀ acc : List Json, acc.Pairwise (fun a b => keyGT b a = false) →
      (l.foldl (fun acc x => insertDesc x acc) acc).filter
          (fun j => updatedKeyOf j == some t) =
        acc.filter (fun j => updatedKeyOf j == some t)
          ++ l.filter (fun j => updatedKeyOf j == some t) := by
  induction l with
  | nil => intro acc _; simp
  | cons x xs ih =>
    intro acc hacc
    rw [List.foldl_cons, ih _ (insertDesc_pairwise hacc)]
    by_cases hx : (updatedKeyOf x == some t) = true
    · rw [insertDesc_filter_of_eq hacc (beq_iff_eq.mp hx), List.filter_cons,
        if_pos hx, List.append_assoc, List.singleton_append]
    · rw [insertDesc_filter_of_ne (by simpa using hx), List.filter_cons,
        if_neg hx]

theorem sortByUpdatedDesc_filter (t : Int) (l : List Json) :
    (sortByUpdatedDesc l).filter (fun j => updatedKeyOf j == some t) =
      l.filter (fun j => updatedKeyOf j == some t) := by
  simpa using sortAux_filter t l [] List.Pairwise.nil

/-! ## Character-level helper lemmas for the codec proofs -/

theorem char_ne_of_toNat_ne {c d : Char} (h : c.toNat ≠ d.toNat) : c ≠ d :=
  fun he => h (by rw [he])

theorem ne_char_of_range {c : Char} {lo hi : Nat} (h1 : lo ≤ c.toNat) (h2 : c.toNat ≤ hi)
    (d : Char) (hd : d.toNat < lo ∨ hi < d.toNat) : c ≠ d :=
  char_ne_of_toNat_ne (by omega)

theorem isDigitChar_toNat {c : Char} (h : isDigitChar c = true) :
    48 ≤ c.toNat ∧ c.toNat ≤ 57 := by
  unfold isDigitChar at h
  simpa [Bool.and_eq_true, decide_eq_true_eq] using h

theorem isWsChar_false_of_range {c : Char} (h1 : 33 ≤ c.toNat) : isWsChar c = false := by
  unfold isWsChar
  simp only [Bool.or_eq_false_iff, beq_eq_false_iff_ne]
  omega

theorem isDigitChar_facts {c : Char} (h : isDigitChar c = true) :
    isWsChar c = false ∧ c ≠ ']' ∧ c ≠ ',' ∧ c ≠ rbrace ∧ c ≠ 'n' ∧ c ≠ 't' ∧ c ≠ 'f'
      ∧ c ≠ '"' ∧ c ≠ '[' ∧ c ≠ lbrace ∧ c ≠ '-' := by
  obtain ⟨h1, h2⟩ := isDigitChar_toNat h
  refine ⟨isWsChar_false_of_range (by omega), ne_char_of_range h1 h2 _ (by decide),
    ne_char_of_range h1 h2 _ (by decide), ne_char_of_range h1 h2 _ (by decide),
    ne_char_of_range h1 h2 _ (by decide), ne_char_of_range h1 h2 _ (by decide),
    ne_char_of_range h1 h2 _ (by decide), ne_char_of_range h1 h2 _ (by decide),
    ne_char_of_range h1 h2 _ (by decide), ne_char_of_range h1 h2 _ (by decide),
    ne_char_of_range h1 h2 _ (by decide)⟩

theorem skipWs_cons_of_neg {c : Char} {cs : List Char} (h : isWsChar c = false) :
    skipWs (c :: cs) = c :: cs := by
  unfold skipWs
  rw [List.dropWhile_cons, if_neg (by simp [h])]

theorem skipWs_cons_of_pos {c : Char} {cs : List Char} (h : isWsChar c = true) :
    skipWs (c :: cs) = skipWs cs := by
  unfold skipWs
  rw [List.dropWhile_cons, if_pos (by simp [h])]

theorem skipWs_indent_append (n : Nat) (l : List Char) :
    skipWs (indentChars n ++ l) = skipWs l := by
  induction n with
  | zero => rfl
  | succ n ih =>
    show skipWs ((List.replicate (n + 1) ' ') ++ l) = skipWs l
    rw [List.replicate_succ, List.cons_append, skipWs_cons_of_pos (by decide)]
    exact ih

theorem takeWhile_digits_append {ds rest : List Char}
    (h1 : ∀ c ∈ ds, isDigitChar c = true) (h2 : noDigitHead rest) :
    (ds ++ rest).takeWhile isDigitChar = ds ∧ (ds ++ rest).dropWhile isDigitChar = rest := by
  induction ds with
  | nil =>
    cases rest with
    | nil => exact ⟨rfl, rfl⟩
    | cons c cs =>
      have hc : isDigitChar c = false := h2
      constructor
      · rw [List.nil_append, List.takeWhile_cons, if_neg (by simp [hc])]
      · rw [List.nil_append, List.dropWhile_cons, if_neg (by simp [hc])]
  | cons d ds' ih =>
    have hd : isDigitChar d = true := h1 d (List.mem_cons_self d ds')
    have ih' := ih (fun c hc => h1 c (List.mem_cons_of_mem _ hc))
    constructor
    · rw [List.cons_append, List.takeWhile_cons, if_pos (by simp [hd]), ih'.1]
    · rw [List.cons_append, List.dropWhile_cons, if_pos (by simp [hd]), ih'.2]

/-! ## Decimal rendering lemmas -/

theorem digitVal_digitChar {k : Nat} (h : k < 10) : digitVal (Nat.digitChar k) = k := by
  interval_cases k <;> rfl

theorem isDigitChar_digitChar {k : Nat} (h : k < 10) :
    isDigitChar (Nat.digitChar k) = true := by
  interval_cases k <;> rfl

theorem isHexDigitChar_digitChar {k : Nat} (h : k < 16) :
    isHexDigitChar (Nat.digitChar k) = true := by
  interval_cases k <;> rfl

theorem hexVal_digitChar {k : Nat} (h : k < 16) : hexVal (Nat.digitChar k) = k := by
  interval_cases k <;> rfl

theorem digitsToNat_append_one (ds : List Char) (d : Char) :
    digitsToNat (ds ++ [d]) = digitsToNat ds * 10 + digitVal d := by
  unfold digitsToNat
  rw [List.foldl_append]
  rfl

theorem natCharsAux_spec (fuel : Nat) : ∀ n : Nat, n < fuel →
    (∀ c ∈ natCharsAux fuel n, isDigitChar c = true) ∧
      digitsToNat (natCharsAux fuel n) = n ∧ natCharsAux fuel n ≠ [] := by
  induction fuel with
  | zero => intro n h; omega
  | succ f ih =>
    intro n h
    by_cases h10 : n < 10
    · rw [natCharsAux, if_pos h10]
      refine ⟨?_, ?_, by simp⟩
      · intro c hc
        rw [List.mem_singleton] at hc
        subst hc
        exact isDigitChar_digitChar h10
      · show digitsToNat ([] ++ [Nat.digitChar n]) = n
        rw [digitsToNat_append_one]
        show 0 * 10 + digitVal (Nat.digitChar n) = n
        rw [digitVal_digitChar h10]
        omega
    · rw [natCharsAux, if_neg h10]
      have hlt : n / 10 < f := by
        have hd : n / 10 < n := Nat.div_lt_self (by omega) (by omega)
        omega
      obtain ⟨ha, hb, _⟩ := ih (n / 10) hlt
      refine ⟨?_, ?_, by simp⟩
      · intro c hc
        rw [List.mem_append] at hc
        rcases hc with hc | hc
        · exact ha c hc
        · rw [List.mem_singleton] at hc
          subst hc
          exact isDigitChar_digitChar (Nat.mod_lt _ (by omega))
      · rw [digitsToNat_append_one, hb, digitVal_digitChar (Nat.mod_lt _ (by omega))]
        omega

theorem natChars_spec (n : Nat) :
    (∀ c ∈ natChars n, isDigitChar c = true) ∧
      digitsToNat (natChars n) = n ∧ natChars n ≠ [] :=
  natCharsAux_spec (n + 1) n (Nat.lt_succ_self n)

/-! ## String-literal round trip -/

theorem mk_reverse_cons (c : Char) (acc cs : List Char) :
    (⟨(c :: acc).reverse ++ cs⟩ : String) = ⟨acc.reverse ++ (c :: cs)⟩ := by
  rw [List.reverse_cons, List.append_assoc]
  rfl

theorem parseStrAux_quote (acc cs : List Char) :
    parseStrAux acc ('"' :: cs) = some (⟨acc.reverse⟩, cs) := by
  rw [parseStrAux.eq_def]
  simp

theorem parseStrAux_esc_quote (acc cs : List Char) :
    parseStrAux acc ('\\' :: '"' :: cs) = parseStrAux ('"' :: acc) cs := by
  rw [parseStrAux.eq_def]; simp

theorem parseStrAux_esc_back (acc cs : List Char) :
    parseStrAux acc ('\\' :: '\\' :: cs) = parseStrAux ('\\' :: acc) cs := by
  rw [parseStrAux.eq_def]; simp

theorem parseStrAux_esc_n (acc cs : List Char) :
    parseStrAux acc ('\\' :: 'n' :: cs) = parseStrAux ('\n' :: acc) cs := by
  rw [parseStrAux.eq_def]; simp

theorem parseStrAux_esc_r (acc cs : List Char) :
    parseStrAux acc ('\\' :: 'r' :: cs) = parseStrAux ('\r' :: acc) cs := by
  rw [parseStrAux.eq_def]; simp

theorem parseStrAux_esc_t (acc cs : List Char) :
    parseStrAux acc ('\\' :: 't' :: cs) = parseStrAux ('\t' :: acc) cs := by
  rw [parseStrAux.eq_def]; simp

theorem parseStrAux_esc_b (acc cs : List Char) :
    parseStrAux acc ('\\' :: 'b' :: cs) = parseStrAux (Char.ofNat 8 :: acc) cs := by
  rw [parseStrAux.eq_def]; simp

theorem parseStrAux_esc_f (acc cs : List Char) :
    parseStrAux acc ('\\' :: 'f' :: cs) = parseStrAux (Char.ofNat 12 :: acc) cs := by
  rw [parseStrAux.eq_def]; simp

theorem parseStrAux_u (acc r : List Char) {h1 h2 h3 h4 : Char}
    (hh : (isHexDigitChar h1 && isHexDigitChar h2 && isHexDigitChar h3
      && isHexDigitChar h4) = true)
    (hlt : hexVal h1 * 4096 + hexVal h2 * 256 + hexVal h3 * 16 + hexVal h4 < 55296) :
    parseStrAux acc ('\\' :: 'u' :: h1 :: h2 :: h3 :: h4 :: r) =
      parseStrAux
        (Char.ofNat (hexVal h1 * 4096 + hexVal h2 * 256 + hexVal h3 * 16 + hexVal h4)
          :: acc) r := by
  rw [parseStrAux.eq_def]
  simp [hh, hlt]

theorem parseStrAux_raw (acc cs : List Char) {c : Char} (h1 : c ≠ '"') (h2 : c ≠ '\\')
    (h3 : ¬(c.toNat < 32)) :
    parseStrAux acc (c :: cs) = parseStrAux (c :: acc) cs := by
  rw [parseStrAux.eq_def]
  simp [h1, h2, h3]

theorem parseStrAux_flatten (cs : List Char) : ∀ (acc rest : List Char),
    parseStrAux acc ((cs.map escChar).flatten ++ ('"' :: rest)) =
      some (⟨acc.reverse ++ cs⟩, rest) := by
  induction cs with
  | nil =>
    intro acc rest
    show parseStrAux acc ('"' :: rest) = _
    rw [parseStrAux_quote, List.append_nil]
  | cons c cs' ih =>
    intro acc rest
    show parseStrAux acc ((escChar c ++ (cs'.map escChar).flatten) ++ ('"' :: rest)) = _
    rw [List.append_assoc]
    by_cases h1 : c = '"'
    · subst h1
      rw [show escChar '"' = ['\\', '"'] from rfl]
      show parseStrAux acc ('\\' :: '"' :: _) = _
      rw [parseStrAux_esc_quote]
      show parseStrAux _ ((cs'.map escChar).flatten ++ '"' :: rest) = _
      rw [ih, mk_reverse_cons]
    · by_cases h2 : c = '\\'
      · subst h2
        rw [show escChar '\\' = ['\\', '\\'] from rfl]
        show parseStrAux acc ('\\' :: '\\' :: _) = _
        rw [parseStrAux_esc_back]
        show parseStrAux _ ((cs'.map escChar).flatten ++ '"' :: rest) = _
        rw [ih, mk_reverse_cons]
      · by_cases h3 : c = '\n'
        · subst h3
          rw [show escChar '\n' = ['\\', 'n'] from rfl]
          show parseStrAux acc ('\\' :: 'n' :: _) = _
          rw [parseStrAux_esc_n]
          show parseStrAux _ ((cs'.map escChar).flatten ++ '"' :: rest) = _
          rw [ih, mk_reverse_cons]
        · by_cases h4 : c = '\r'
          · subst h4
            rw [show escChar '\r' = ['\\', 'r'] from rfl]
            show parseStrAux acc ('\\' :: 'r' :: _) = _
            rw [parseStrAux_esc_r]
            show parseStrAux _ ((cs'.map escChar).flatten ++ '"' :: rest) = _
            rw [ih, mk_reverse_cons]
          · by_cases h5 : c = '\t'
            · subst h5
              rw [show escChar '\t' = ['\\', 't'] from rfl]
              show parseStrAux acc ('\\' :: 't' :: _) = _
              rw [parseStrAux_esc_t]
              show parseStrAux _ ((cs'.map escChar).flatten ++ '"' :: rest) = _
              rw [ih, mk_reverse_cons]
            · by_cases h6 : c = Char.ofNat 8
              · subst h6
                rw [show escChar (Char.ofNat 8) = ['\\', 'b'] from rfl]
                show parseStrAux acc ('\\' :: 'b' :: _) = _
                rw [parseStrAux_esc_b]
                show parseStrAux _ ((cs'.map escChar).flatten ++ '"' :: rest) = _
                rw [ih, mk_reverse_cons]
              · by_cases h7 : c = Char.ofNat 12
                · subst h7
                  rw [show escChar (Char.ofNat 12) = ['\\', 'f'] from rfl]
                  show parseStrAux acc ('\\' :: 'f' :: _) = _
                  rw [parseStrAux_esc_f]
                  show parseStrAux _ ((cs'.map escChar).flatten ++ '"' :: rest) = _
                  rw [ih, mk_reverse_cons]
                · by_cases h8 : c.toNat < 32
                  · rw [show escChar c = ['\\', 'u', '0', '0', Nat.digitChar (c.toNat / 16),
                        Nat.digitChar (c.toNat % 16)] from by
                      unfold escChar
                      rw [if_neg h1, if_neg h2, if_neg h3, if_neg h4, if_neg h5, if_neg h6,
                        if_neg h7, if_pos h8]]
                    show parseStrAux acc
                      ('\\' :: 'u' :: '0' :: '0' :: Nat.digitChar (c.toNat / 16)
                        :: Nat.digitChar (c.toNat % 16) :: _) = _
                    have hdiv : c.toNat / 16 < 16 := by omega
                    have hmod : c.toNat % 16 < 16 := Nat.mod_lt _ (by omega)
                    rw [parseStrAux_u _ _
                      (by
                        simp only [Bool.and_eq_true]
                        exact ⟨⟨⟨by decide, by decide⟩, isHexDigitChar_digitChar hdiv⟩,
                          isHexDigitChar_digitChar hmod⟩)
                      (by
                        rw [hexVal_digitChar hdiv, hexVal_digitChar hmod]
                        show 0 * 4096 + 0 * 256 + c.toNat / 16 * 16 + c.toNat % 16 < 55296
                        omega)]
                    have hval : hexVal '0' * 4096 + hexVal '0' * 256
                        + hexVal (Nat.digitChar (c.toNat / 16)) * 16
                        + hexVal (Nat.digitChar (c.toNat % 16)) = c.toNat := by
                      rw [hexVal_digitChar hdiv, hexVal_digitChar hmod]
                      show 0 * 4096 + 0 * 256 + c.toNat / 16 * 16 + c.toNat % 16 = c.toNat
                      omega
                    rw [hval, Char.ofNat_toNat]
                    show parseStrAux _ ((cs'.map escChar).flatten ++ '"' :: rest) = _
                    rw [ih, mk_reverse_cons]
                  · rw [show escChar c = [c] from by
                      unfold escChar
                      rw [if_neg h1, if_neg h2, if_neg h3, if_neg h4, if_neg h5, if_neg h6,
                        if_neg h7, if_neg h8]]
                    show parseStrAux acc (c :: _) = _
                    rw [parseStrAux_raw _ _ h1 h2 h8]
                    show parseStrAux _ ((cs'.map escChar).flatten ++ '"' :: rest) = _
                    rw [ih, mk_reverse_cons]
/-! ## Size bounds and head shapes of the printer -/

theorem szVal_pos (v : Json) : 1 ≤ szVal v := by
  cases v <;> simp [szVal]

theorem szArr_pos (xs : JArr) : 1 ≤ szArr xs := by
  cases xs <;> (simp [szArr]; try omega)

theorem szObj_pos (fs : JObj) : 1 ≤ szObj fs := by
  cases fs <;> (simp [szObj]; try omega)

theorem intChars_ne_nil (n : Int) : intChars n ≠ [] := by
  unfold intChars
  by_cases hn : n < 0
  · simp [hn]
  · simpa [hn] using (natChars_spec n.natAbs).2.2

mutual
theorem szVal_le_len : ∀ (ind : Nat) (v : Json), szVal v ≤ (ppVal ind v).length
  | _, .null => by simp [ppVal, szVal]
  | _, .bool true => by simp [ppVal, szVal]
  | _, .bool false => by simp [ppVal, szVal]
  | ind, .num n => by
    have h := intChars_ne_nil n
    have : 1 ≤ (intChars n).length := by
      cases hc : intChars n with
      | nil => exact absurd hc h
      | cons a l => simp
    simpa [ppVal, szVal] using this
  | _, .str s => by simp [ppVal, szVal, strLit]
  | _, .arr .nil => by simp [ppVal, szVal, szArr]
  | ind, .arr (.cons x xs) => by
    have h := szArr_le_len (ind + 2) (.cons x xs) (by omega)
    simp only [ppVal, szVal, List.length_cons, List.length_append, indentChars,
      List.length_replicate, List.length_singleton]
    omega
  | _, .obj .nil => by simp [ppVal, szVal, szObj]
  | ind, .obj (.cons k v fs) => by
    have h := szObj_le_len (ind + 2) (.cons k v fs) (by omega)
    simp only [ppVal, szVal, List.length_cons, List.length_append, indentChars,
      List.length_replicate, List.length_singleton]
    omega
theorem szArr_le_len : ∀ (i : Nat) (xs : JArr), 2 ≤ i →
    szArr xs ≤ (ppItems i xs).length + 1
  | _, .nil, _ => by simp [ppItems, szArr]
  | i, .cons x .nil, hi => by
    have h := szVal_le_len i x
    simp only [ppItems, szArr, List.length_append, indentChars, List.length_replicate]
    omega
  | i, .cons x (.cons y ys), hi => by
    have h1 := szVal_le_len i x
    have h2 := szArr_le_len i (.cons y ys) hi
    simp only [ppItems, szArr, List.length_append, indentChars, List.length_replicate,
      List.length_cons] at h2 ⊢
    omega
theorem szObj_le_len : ∀ (i : Nat) (fs : JObj), 2 ≤ i →
    szObj fs ≤ (ppFields i fs).length + 1
  | _, .nil, _ => by simp [ppFields, szObj]
  | i, .cons k v .nil, hi => by
    have h := szVal_le_len i v
    simp only [ppFields, szObj, List.length_append, indentChars, List.length_replicate,
      List.length_cons]
    omega
  | i, .cons k v (.cons k2 v2 fs), hi => by
    have h1 := szVal_le_len i v
    have h2 := szObj_le_len i (.cons k2 v2 fs) hi
    simp only [ppFields, szObj, List.length_append, indentChars, List.length_replicate,
      List.length_cons] at h2 ⊢
    omega
end

theorem ppVal_head (ind : Nat) (v : Json) :
    ∃ c cs, ppVal ind v = c :: cs ∧ isWsChar c = false ∧ c ≠ ']' ∧ c ≠ rbrace := by
  cases v with
  | null => exact ⟨'n', _, rfl, rfl, by decide, by decide⟩
  | bool b =>
    cases b
    case true => exact ⟨'t', _, rfl, rfl, by decide, by decide⟩
    case false => exact ⟨'f', _, rfl, rfl, by decide, by decide⟩
  | num n =>
    by_cases hn : n < 0
    · refine ⟨'-', natChars n.natAbs, ?_, by decide, by decide, by decide⟩
      show intChars n = _
      rw [intChars, if_pos hn]
    · obtain ⟨d, ds, hd⟩ := List.exists_cons_of_ne_nil (natChars_spec n.natAbs).2.2
      have hdig : isDigitChar d = true :=
        (natChars_spec n.natAbs).1 d (by rw [hd]; exact List.mem_cons_self _ _)
      obtain ⟨hws, hne, _, hnb, _⟩ := isDigitChar_facts hdig
      refine ⟨d, ds, ?_, hws, hne, hnb⟩
      show intChars n = _
      rw [intChars, if_neg hn, hd]
  | str s => exact ⟨'"', _, rfl, rfl, by decide, by decide⟩
  | arr xs =>
    cases xs
    case nil => exact ⟨'[', _, rfl, rfl, by decide, by decide⟩
    case cons x t => exact ⟨'[', _, rfl, rfl, by decide, by decide⟩
  | obj fs =>
    cases fs
    case nil => exact ⟨lbrace, _, rfl, rfl, by decide, by decide⟩
    case cons k v t => exact ⟨lbrace, _, rfl, rfl, by decide, by decide⟩

theorem parseVal_ws {c : Char} (h : isWsChar c = true) (fuel : Nat) (cs : List Char) :
    parseVal fuel (c :: cs) = parseVal fuel cs := by
  cases fuel with
  | zero => rfl
  | succ f =>
    conv_lhs => rw [parseVal.eq_def]
    conv_rhs => rw [parseVal.eq_def]
    simp only [skipWs_cons_of_pos h]

theorem parseVal_digit {c : Char} (hd : isDigitChar c = true) (f : Nat) (r : List Char) :
    parseVal (f + 1) (c :: r) =
      some (.num (digitsToNat ((c :: r).takeWhile isDigitChar)),
        (c :: r).dropWhile isDigitChar) := by
  obtain ⟨hws, _, _, _, hn, ht, hf, hq, hb, hlb, hm⟩ := isDigitChar_facts hd
  rw [parseVal.eq_def]
  simp [skipWs_cons_of_neg hws, hn, ht, hf, hq, hb, hlb, hm, hd]

theorem string_mk_toList (s : String) : (⟨s.toList⟩ : String) = s := rfl

theorem parseVal_num (f : Nat) (n : Int) (rest : List Char) (hnd : noDigitHead rest) :
    parseVal (f + 1) (intChars n ++ rest) = some (.num n, rest) := by
  obtain ⟨hdig, hval, hnil⟩ := natChars_spec n.natAbs
  have hsplit := takeWhile_digits_append hdig hnd
  by_cases hn : n < 0
  · show parseVal (f + 1) ((intChars n) ++ rest) = _
    rw [intChars, if_pos hn, List.cons_append]
    have hstep : parseVal (f + 1) ('-' :: (natChars n.natAbs ++ rest)) =
        (match (natChars n.natAbs ++ rest).takeWhile isDigitChar with
          | [] => none
          | ds => some (.num (-(digitsToNat ds : Int)),
              (natChars n.natAbs ++ rest).dropWhile isDigitChar)) := rfl
    rw [hstep, hsplit.1, hsplit.2]
    obtain ⟨d, ds, hd⟩ := List.exists_cons_of_ne_nil hnil
    rw [hd]
    show some (Json.num (-(digitsToNat (d :: ds) : Int)), rest) = some (Json.num n, rest)
    rw [← hd, hval]
    have : -(n.natAbs : Int) = n := by omega
    rw [this]
  · rw [intChars, if_neg hn]
    obtain ⟨d, ds, hd⟩ := List.exists_cons_of_ne_nil hnil
    have hdd : isDigitChar d = true := hdig d (by rw [hd]; exact List.mem_cons_self _ _)
    rw [hd, List.cons_append, parseVal_digit hdd, ← List.cons_append, ← hd,
      hsplit.1, hsplit.2, hval]
    have : (n.natAbs : Int) = n := by omega
    rw [this]

/-! ## One-step reduction lemmas for the parser -/

theorem noDigitHead_cons {c : Char} (h : isDigitChar c = false) (cs : List Char) :
    noDigitHead (c :: cs) := h

theorem parseVal_lbracket (f : Nat) (R : List Char) :
    parseVal (f + 1) ('[' :: R) =
      (match parseItems f R with
        | some (xs, r') => some (Json.arr xs, r')
        | none => none) := rfl

theorem parseVal_lbrace (f : Nat) (R : List Char) :
    parseVal (f + 1) (lbrace :: R) =
      (match parseFields f R with
        | some (fs, r') => some (Json.obj fs, r')
        | none => none) := rfl

theorem parseItems_step (f : Nat) {cs : List Char} {c : Char} {L : List Char}
    (hs : skipWs cs = c :: L) (hne : c ≠ ']') :
    parseItems (f + 1) cs =
      (match parseVal f (c :: L) with
       | some (v, r1) =>
         (match skipWs r1 with
          | [] => none
          | c2 :: r2 =>
            if c2 = ',' then
              (match parseItems f r2 with
               | some (tl, r3) => some (JArr.cons v tl, r3)
               | none => none)
            else if c2 = ']' then some (JArr.cons v .nil, r2)
            else none)
       | none => none) := by
  rw [parseItems.eq_def]
  simp [hs, hne]

theorem parseFields_step (f : Nat) {cs : List Char} {L : List Char}
    (hs : skipWs cs = '"' :: L) :
    parseFields (f + 1) cs =
      (match parseStrAux [] L with
       | some (k, r1) =>
         (match skipWs r1 with
          | [] => none
          | c2 :: r2 =>
            if c2 = ':' then
              (match parseVal f r2 with
               | some (v, r3) =>
                 (match skipWs r3 with
                  | [] => none
                  | c3 :: r4 =>
                    if c3 = ',' then
                      (match parseFields f r4 with
                       | some (fs, r5) => some (JObj.cons k v fs, r5)
                       | none => none)
                    else if c3 = rbrace then some (JObj.cons k v .nil, r4)
                    else none)
               | none => none)
            else none)
       | none => none) := by
  rw [parseFields.eq_def]
  simp [hs, show ¬(('"' : Char) = rbrace) from by decide]

/-! ## The printer-parser round trip -/

theorem parse_print_fuel : ∀ fuel : Nat,
    (∀ (ind : Nat) (v : Json) (rest : List Char), szVal v ≤ fuel → noDigitHead rest →
      parseVal fuel (ppVal ind v ++ rest) = some (v, rest)) ∧
    (∀ (i1 i2 : Nat) (x : Json) (xs : JArr) (rest : List Char),
      szArr (.cons x xs) ≤ fuel →
      parseItems fuel
          ('\n' :: (ppItems i1 (.cons x xs) ++ '\n' :: (indentChars i2 ++ (']' :: rest))))
        = some (.cons x xs, rest)) ∧
    (∀ (i1 i2 : Nat) (k : String) (v : Json) (fs : JObj) (rest : List Char),
      szObj (.cons k v fs) ≤ fuel →
      parseFields fuel
          ('\n' :: (ppFields i1 (.cons k v fs) ++ '\n' :: (indentChars i2 ++ (rbrace :: rest))))
        = some (.cons k v fs, rest)) := by
  intro fuel
  induction fuel with
  | zero =>
    refine ⟨?_, ?_, ?_⟩
    · intro ind v rest hsz _
      have := szVal_pos v
      omega
    · intro i1 i2 x xs rest hsz
      have h1 := szVal_pos x
      have h2 := szArr_pos xs
      simp only [szArr] at hsz
      omega
    · intro i1 i2 k v fs rest hsz
      have h1 := szVal_pos v
      have h2 := szObj_pos fs
      simp only [szObj] at hsz
      omega
  | succ f ih =>
    obtain ⟨ihV, ihA, ihO⟩ := ih
    refine ⟨?_, ?_, ?_⟩
    · -- parseVal on a printed value
      intro ind v rest hsz hnd
      cases v with
      | null => rfl
      | bool b => cases b <;> rfl
      | num n => exact parseVal_num f n rest hnd
      | str s =>
        have harg : ppVal ind (.str s) ++ rest =
            '"' :: ((s.toList.map escChar).flatten ++ ('"' :: rest)) := by
          show ('"' :: ((s.toList.map escChar).flatten ++ ['"'])) ++ rest = _
          rw [List.cons_append, List.append_assoc]
          rfl
        rw [harg]
        rw [show parseVal (f + 1)
            ('"' :: ((s.toList.map escChar).flatten ++ ('"' :: rest))) =
          (match parseStrAux [] ((s.toList.map escChar).flatten ++ ('"' :: rest)) with
            | some (t, r') => some (Json.str t, r')
            | none => none) from rfl]
        rw [parseStrAux_flatten]
        show some (Json.str (⟨s.toList⟩ : String), rest) = some (Json.str s, rest)
        rw [string_mk_toList]
      | arr xs =>
        cases xs with
        | nil =>
          simp only [szVal, szArr] at hsz
          obtain ⟨f', rfl⟩ : ∃ f', f = f' + 1 := ⟨f - 1, by omega⟩
          rfl
        | cons x xs =>
          have hsz' : szArr (.cons x xs) ≤ f := by
            simp only [szVal] at hsz
            have := szArr_pos (.cons x xs)
            omega
          have harg : ppVal ind (.arr (.cons x xs)) ++ rest =
              '[' :: ('\n' :: (ppItems (ind + 2) (.cons x xs)
                ++ '\n' :: (indentChars ind ++ (']' :: rest)))) := by
            show ('[' :: '\n' :: (ppItems (ind + 2) (.cons x xs)
              ++ '\n' :: (indentChars ind ++ [']']))) ++ rest = _
            simp [List.append_assoc]
          rw [harg, parseVal_lbracket, ihA (ind + 2) ind x xs rest hsz']
      | obj fs =>
        cases fs with
        | nil =>
          simp only [szVal, szObj] at hsz
          obtain ⟨f', rfl⟩ : ∃ f', f = f' + 1 := ⟨f - 1, by omega⟩
          rfl
        | cons k v fs =>
          have hsz' : szObj (.cons k v fs) ≤ f := by
            simp only [szVal] at hsz
            have := szObj_pos (.cons k v fs)
            omega
          have harg : ppVal ind (.obj (.cons k v fs)) ++ rest =
              lbrace :: ('\n' :: (ppFields (ind + 2) (.cons k v fs)
                ++ '\n' :: (indentChars ind ++ (rbrace :: rest)))) := by
            show (lbrace :: '\n' :: (ppFields (ind + 2) (.cons k v fs)
              ++ '\n' :: (indentChars ind ++ [rbrace]))) ++ rest = _
            simp [List.append_assoc]
          rw [harg, parseVal_lbrace, ihO (ind + 2) ind k v fs rest hsz']
    · -- parseItems on printed items
      intro i1 i2 x xs rest hsz
      obtain ⟨c0, L0, hpp, hws0, hne0, _⟩ := ppVal_head i1 x
      have hszx : szVal x ≤ f := by
        simp only [szArr] at hsz
        have := szArr_pos xs
        omega
      cases xs with
      | nil =>
        show parseItems (f + 1) ('\n' :: ((indentChars i1 ++ ppVal i1 x)
          ++ '\n' :: (indentChars i2 ++ (']' :: rest)))) = _
        have hskip : skipWs ('\n' :: ((indentChars i1 ++ ppVal i1 x)
            ++ '\n' :: (indentChars i2 ++ (']' :: rest)))) =
            c0 :: (L0 ++ '\n' :: (indentChars i2 ++ (']' :: rest))) := by
          rw [skipWs_cons_of_pos (by decide), List.append_assoc, skipWs_indent_append,
            hpp, List.cons_append, skipWs_cons_of_neg hws0]
        rw [parseItems_step f hskip hne0]
        have harg : c0 :: (L0 ++ '\n' :: (indentChars i2 ++ (']' :: rest))) =
            ppVal i1 x ++ ('\n' :: (indentChars i2 ++ (']' :: rest))) := by
          rw [hpp]
          rfl
        rw [harg, ihV i1 x _ hszx (noDigitHead_cons (by decide) _)]
        have hskip2 : skipWs ('\n' :: (indentChars i2 ++ (']' :: rest))) = ']' :: rest := by
          rw [skipWs_cons_of_pos (by decide), skipWs_indent_append,
            skipWs_cons_of_neg (by decide)]
        simp [hskip2]
      | cons y ys =>
        have hszys : szArr (.cons y ys) ≤ f := by
          simp only [szArr] at hsz ⊢
          have := szVal_pos x
          omega
        show parseItems (f + 1) ('\n' :: (((indentChars i1 ++ ppVal i1 x)
          ++ ',' :: '\n' :: ppItems i1 (.cons y ys))
          ++ '\n' :: (indentChars i2 ++ (']' :: rest)))) = _
        have hskip : skipWs ('\n' :: (((indentChars i1 ++ ppVal i1 x)
            ++ ',' :: '\n' :: ppItems i1 (.cons y ys))
            ++ '\n' :: (indentChars i2 ++ (']' :: rest)))) =
            c0 :: (L0 ++ (',' :: '\n' :: (ppItems i1 (.cons y ys)
              ++ '\n' :: (indentChars i2 ++ (']' :: rest))))) := by
          rw [skipWs_cons_of_pos (by decide), List.append_assoc, List.append_assoc,
            skipWs_indent_append, hpp, List.cons_append, skipWs_cons_of_neg hws0]
          simp [List.append_assoc]
        rw [parseItems_step f hskip hne0]
        have harg : c0 :: (L0 ++ (',' :: '\n' :: (ppItems i1 (.cons y ys)
            ++ '\n' :: (indentChars i2 ++ (']' :: rest))))) =
            ppVal i1 x ++ (',' :: '\n' :: (ppItems i1 (.cons y ys)
              ++ '\n' :: (indentChars i2 ++ (']' :: rest)))) := by
          rw [hpp]
          rfl
        rw [harg, ihV i1 x _ hszx (noDigitHead_cons (by decide) _)]
        have hsw : skipWs (',' :: '\n' :: (ppItems i1 (.cons y ys)
            ++ '\n' :: (indentChars i2 ++ (']' :: rest)))) =
            ',' :: '\n' :: (ppItems i1 (.cons y ys)
              ++ '\n' :: (indentChars i2 ++ (']' :: rest))) :=
          skipWs_cons_of_neg (by decide)
        simp [hsw, ihA i1 i2 y ys rest hszys]
    · -- parseFields on printed fields
      intro i1 i2 k v fs rest hsz
      have hszv : szVal v ≤ f := by
        simp only [szObj] at hsz
        have := szObj_pos fs
        omega
      cases fs with
      | nil =>
        show parseFields (f + 1) ('\n' :: (((indentChars i1 ++ strLit k)
          ++ ':' :: ' ' :: ppVal i1 v)
          ++ '\n' :: (indentChars i2 ++ (rbrace :: rest)))) = _
        have hskip : skipWs ('\n' :: (((indentChars i1 ++ strLit k)
            ++ ':' :: ' ' :: ppVal i1 v)
            ++ '\n' :: (indentChars i2 ++ (rbrace :: rest)))) =
            '"' :: ((k.toList.map escChar).flatten
              ++ ('"' :: (':' :: ' ' :: (ppVal i1 v
                ++ '\n' :: (indentChars i2 ++ (rbrace :: rest)))))) := by
          rw [skipWs_cons_of_pos (by decide), List.append_assoc, List.append_assoc,
            skipWs_indent_append]
          show skipWs (('"' :: ((k.toList.map escChar).flatten ++ ['"']))
            ++ (':' :: ' ' :: ppVal i1 v
              ++ '\n' :: (indentChars i2 ++ (rbrace :: rest)))) = _
          rw [List.cons_append, skipWs_cons_of_neg (by decide), List.append_assoc]
          rfl
        rw [parseFields_step f hskip, parseStrAux_flatten]
        have hsw : skipWs (':' :: ' ' :: (ppVal i1 v
            ++ '\n' :: (indentChars i2 ++ (rbrace :: rest)))) =
            ':' :: ' ' :: (ppVal i1 v
              ++ '\n' :: (indentChars i2 ++ (rbrace :: rest))) :=
          skipWs_cons_of_neg (by decide)
        have hv : parseVal f (' ' :: (ppVal i1 v
            ++ '\n' :: (indentChars i2 ++ (rbrace :: rest)))) =
            some (v, '\n' :: (indentChars i2 ++ (rbrace :: rest))) := by
          rw [parseVal_ws (by decide), ihV i1 v _ hszv (noDigitHead_cons (by decide) _)]
        have hskip3 : skipWs ('\n' :: (indentChars i2 ++ (rbrace :: rest)))
            = rbrace :: rest := by
          rw [skipWs_cons_of_pos (by decide), skipWs_indent_append,
            skipWs_cons_of_neg (by decide)]
        simp [hsw, hv, hskip3, string_mk_toList, show ¬(rbrace = ',') from by decide]
      | cons k2 v2 fs =>
        have hszfs : szObj (.cons k2 v2 fs) ≤ f := by
          simp only [szObj] at hsz ⊢
          have := szVal_pos v
          omega
        show parseFields (f + 1) ('\n' :: ((((indentChars i1 ++ strLit k)
          ++ ':' :: ' ' :: ppVal i1 v) ++ ',' :: '\n' :: ppFields i1 (.cons k2 v2 fs))
          ++ '\n' :: (indentChars i2 ++ (rbrace :: rest)))) = _
        have hskip : skipWs ('\n' :: ((((indentChars i1 ++ strLit k)
            ++ ':' :: ' ' :: ppVal i1 v) ++ ',' :: '\n' :: ppFields i1 (.cons k2 v2 fs))
            ++ '\n' :: (indentChars i2 ++ (rbrace :: rest)))) =
            '"' :: ((k.toList.map escChar).flatten
              ++ ('"' :: (':' :: ' ' :: (ppVal i1 v
                ++ (',' :: '\n' :: (ppFields i1 (.cons k2 v2 fs)
                  ++ '\n' :: (indentChars i2 ++ (rbrace :: rest)))))))) := by
          rw [skipWs_cons_of_pos (by decide), List.append_assoc, List.append_assoc,
            List.append_assoc, skipWs_indent_append]
          show skipWs (('"' :: ((k.toList.map escChar).flatten ++ ['"']))
            ++ (':' :: ' ' :: ppVal i1 v
              ++ (',' :: '\n' :: ppFields i1 (.cons k2 v2 fs)
                ++ '\n' :: (indentChars i2 ++ (rbrace :: rest))))) = _
          rw [List.cons_append, skipWs_cons_of_neg (by decide), List.append_assoc]
          simp [List.append_assoc]
        rw [parseFields_step f hskip, parseStrAux_flatten]
        have hsw : skipWs (':' :: ' ' :: (ppVal i1 v
            ++ (',' :: '\n' :: (ppFields i1 (.cons k2 v2 fs)
              ++ '\n' :: (indentChars i2 ++ (rbrace :: rest)))))) =
            ':' :: ' ' :: (ppVal i1 v
              ++ (',' :: '\n' :: (ppFields i1 (.cons k2 v2 fs)
                ++ '\n' :: (indentChars i2 ++ (rbrace :: rest))))) :=
          skipWs_cons_of_neg (by decide)
        have hv : parseVal f (' ' :: (ppVal i1 v
            ++ (',' :: '\n' :: (ppFields i1 (.cons k2 v2 fs)
              ++ '\n' :: (indentChars i2 ++ (rbrace :: rest)))))) =
            some (v, ',' :: '\n' :: (ppFields i1 (.cons k2 v2 fs)
              ++ '\n' :: (indentChars i2 ++ (rbrace :: rest)))) := by
          rw [parseVal_ws (by decide), ihV i1 v _ hszv (noDigitHead_cons (by decide) _)]
        have hsw2 : skipWs (',' :: '\n' :: (ppFields i1 (.cons k2 v2 fs)
            ++ '\n' :: (indentChars i2 ++ (rbrace :: rest)))) =
            ',' :: '\n' :: (ppFields i1 (.cons k2 v2 fs)
              ++ '\n' :: (indentChars i2 ++ (rbrace :: rest))) :=
          skipWs_cons_of_neg (by decide)
        simp [hsw, hv, hsw2, ihO i1 i2 k2 v2 fs rest hszfs, string_mk_toList,
          show ¬(rbrace = ',') from by decide]

theorem parseJson_stringify2 (h : Json) : parseJson (stringify2 h) = some h := by
  have hlen : szVal h ≤ (ppVal 0 h).length + 1 := by
    have := szVal_le_len 0 h
    omega
  have hmain := (parse_print_fuel ((ppVal 0 h).length + 1)).1 0 h [] hlen trivial
  rw [List.append_nil] at hmain
  show (match parseVal ((ppVal 0 h).length + 1) (ppVal 0 h) with
    | some (v, r) => if skipWs r = [] then some v else none
    | none => none) = some h
  rw [hmain]
  rfl

/-! ## Bridging lemmas for the claim theorems -/

theorem keepName_iff {hash name : String} :
    keepName hash name = true ↔
      strEnds name ".json" = true ∧ strEnds name "-current.json" = false
        ∧ (strStarts name (hash ++ ".") = true ∨ hexDotStart name.toList = false) := by
  unfold keepName
  cases strEnds name ".json" <;> cases strEnds name "-current.json" <;>
    cases strStarts name (hash ++ ".") <;> cases hexDotStart name.toList <;> simp

theorem chHasPre_take {ps : List Char} : ∀ {l : List Char}, chHasPre ps l = true →
    l.take ps.length = ps := by
  induction ps with
  | nil => intro l _; rfl
  | cons p ps ih =>
    intro l h
    cases l with
    | nil => simp [chHasPre] at h
    | cons c cs =>
      simp only [chHasPre, Bool.and_eq_true, beq_iff_eq] at h
      obtain ⟨rfl, h2⟩ := h
      simp [List.take, ih h2]

theorem collect_cons_skip {hash : String} {e : DirEntry} {es : List DirEntry}
    (h : keepName hash e.name = false) :
    collect hash (e :: es) = collect hash es := by
  simp [collect, h]

theorem keepName_checkpoint {hash name : String}
    (h : strEnds name "-current.json" = true) : keepName hash name = false := by
  simp [keepName, h]

theorem getProjectHash_strLength (s : String) : (getProjectHash s).length = 8 :=
  getProjectHash_length s

theorem keepName_foreign_hex {p n : String}
    (h1 : hexDotStart n.toList = true)
    (h2 : n.toList.take 8 ≠ (getProjectHash p).toList) :
    keepName (getProjectHash p) n = false := by
  have hst : strStarts n (getProjectHash p ++ ".") = false := by
    cases hcs : strStarts n (getProjectHash p ++ ".") with
    | false => rfl
    | true =>
      exfalso
      apply h2
      unfold strStarts at hcs
      have htake := chHasPre_take hcs
      have hps : (getProjectHash p ++ ".").toList = (getProjectHash p).toList ++ ['.'] :=
        String.data_append _ _
      rw [hps] at htake
      have hlen : ((getProjectHash p).toList ++ ['.']).length = 9 := by
        simp [getProjectHash_strLength]
      rw [hlen] at htake
      have : n.toList.take 8 = (n.toList.take 9).take 8 := by
        rw [List.take_take]
        norm_num
      rw [this, htake, List.take_left' (getProjectHash_length p)]
  have h1' : hexDotStart n.data = true := h1
  simp [keepName, h1', hst]

/-! ## The claims -/

/-- C1, counterexample: the claim that no parseable non-checkpoint `.json`
record with a matching `project.hash` is ever omitted fails on the code.
The directory `cexDir` holds one `.json` file that is not a rolling
checkpoint, whose content parses to a record with
`project.hash = getProjectHash "/repo/a"`, yet `listHandoffs "/repo/a"`
returns nothing: the file's name begins with the eight-hex token
`00000000` followed by a dot, so the loop's cheap rejection skips it
without opening it. -/
theorem C1_counterexample :
    listHandoffs "/repo/a" cexDir = []
    ∧ strEnds "00000000.x.json" ".json" = true
    ∧ strEnds "00000000.x.json" "-current.json" = false
    ∧ parseJson "\x7b\"project\": \x7b\"hash\": \"059ba6b9\"\x7d\x7d" = some cexJson
    ∧ projectHashOf cexJson = some (getProjectHash "/repo/a") := by
  refine ⟨?_, rfl, rfl, rfl, ?_⟩ <;> rfl

/-- C1, amended: `listHandoffs(p)` returns exactly (as a permutation of the
loop's output, with membership characterised declaratively) the parseable
non-checkpoint `.json` records whose `project.hash` equals
`getProjectHash p` **and** whose filename survives the new-format prefix
filter: a file whose name starts with eight lowercase-hex characters and a
dot is included only when that prefix is exactly `getProjectHash p`,
regardless of its content. -/
theorem C1_list_membership_amended (p : String) (dir : List DirEntry) (j : Json) :
    (j ∈ listHandoffs p dir ↔
      ∃ e ∈ dir, strEnds e.name ".json" = true
        ∧ strEnds e.name "-current.json" = false
        ∧ (strStarts e.name (getProjectHash p ++ ".") = true
            ∨ hexDotStart e.name.toList = false)
        ∧ parseJson e.content = some j
        ∧ projectHashOf j = some (getProjectHash p))
    ∧ List.Perm (listHandoffs p dir) (collect (getProjectHash p) dir) := by
  constructor
  · show j ∈ sortByUpdatedDesc (collect (getProjectHash p) dir) ↔ _
    rw [mem_sortByUpdatedDesc, mem_collect]
    constructor
    · rintro ⟨e, he, hk, hp, hh⟩
      obtain ⟨h1, h2, h3⟩ := keepName_iff.mp hk
      exact ⟨e, he, h1, h2, h3, hp, hh⟩
    · rintro ⟨e, he, h1, h2, h3, hp, hh⟩
      exact ⟨e, he, keepName_iff.mpr ⟨h1, h2, h3⟩, hp, hh⟩
  · exact sortByUpdatedDesc_perm _

/-- C2: the sequence returned by `listHandoffs` is sorted by the records'
`updated` timestamp in descending order, and records with equal timestamps
keep the relative order in which the directory enumeration produced them
(the surviving records in enumeration order are `collect`'s output). -/
theorem C2_sorted_desc_stable (p : String) (dir : List DirEntry)
    (hall : ∀ j ∈ collect (getProjectHash p) dir, (updatedKeyOf j).isSome) :
    List.Pairwise
        (fun a b => ∀ ka kb, updatedKeyOf a = some ka → updatedKeyOf b = some kb → kb ≤ ka)
        (listHandoffs p dir)
    ∧ ∀ t : Int, (listHandoffs p dir).filter (fun j => updatedKeyOf j == some t)
        = (collect (getProjectHash p) dir).filter (fun j => updatedKeyOf j == some t) := by
  constructor
  · have h := sortByUpdatedDesc_pairwise (collect (getProjectHash p) dir)
    refine h.imp ?_
    intro a b hab ka kb hka hkb
    unfold keyGT at hab
    rw [hka, hkb] at hab
    simp at hab
    omega
  · intro t
    exact sortByUpdatedDesc_filter t _

/-- C2, witness: on the spec's example directory (records dated 2024-01-01,
2024-03-01, 2024-02-01 in enumeration order) every record has a parseable
timestamp, and the theorem applies. -/
theorem C2_witness :
    (∀ j ∈ collect (getProjectHash "/repo/a") exDir, (updatedKeyOf j).isSome)
    ∧ (List.Pairwise
        (fun a b => ∀ ka kb, updatedKeyOf a = some ka → updatedKeyOf b = some kb → kb ≤ ka)
        (listHandoffs "/repo/a" exDir)
      ∧ ∀ t : Int, (listHandoffs "/repo/a" exDir).filter (fun j => updatedKeyOf j == some t)
          = (collect (getProjectHash "/repo/a") exDir).filter
              (fun j => updatedKeyOf j == some t)) :=
  ⟨by decide, C2_sorted_desc_stable "/repo/a" exDir (by decide)⟩

/-- The spec's end-to-end sort example, evaluated: the three records come
back most recent first. -/
theorem listHandoffs_sort_example :
    listHandoffs "/repo/a" exDir = [jsonMar, jsonFeb, jsonJan] := rfl

/-- C3: a directory entry whose filename ends in `-current.json` (a rolling
checkpoint) contributes nothing to `listHandoffs`, whatever its content —
removing the entry leaves the result unchanged. -/
theorem C3_checkpoint_never_listed (p : String) (pre post : List DirEntry) (e : DirEntry)
    (h : strEnds e.name "-current.json" = true) :
    listHandoffs p (pre ++ e :: post) = listHandoffs p (pre ++ post) := by
  unfold listHandoffs
  rw [collect_append, collect_append, collect_cons_skip (keepName_checkpoint h)]

/-- C3, witness: a checkpoint of the queried project itself, with valid
matching content, is still excluded. -/
theorem C3_witness :
    strEnds "059ba6b9-current.json" "-current.json" = true
    ∧ listHandoffs "/repo/a" ([] ++ ⟨"059ba6b9-current.json", recJan⟩ :: [])
        = listHandoffs "/repo/a" ([] ++ []) :=
  ⟨by decide, C3_checkpoint_never_listed "/repo/a" [] [] _ (by decide)⟩

/-- C4: a file whose name begins with eight lowercase-hex characters and a
dot, with that prefix different from `getProjectHash p`, is skipped without
being opened: the result of `listHandoffs p` does not depend on that file's
content at all. -/
theorem C4_foreign_newformat_content_irrelevant (p n c₁ c₂ : String)
    (pre post : List DirEntry)
    (h1 : hexDotStart n.toList = true)
    (h2 : n.toList.take 8 ≠ (getProjectHash p).toList) :
    listHandoffs p (pre ++ ⟨n, c₁⟩ :: post) = listHandoffs p (pre ++ ⟨n, c₂⟩ :: post) := by
  unfold listHandoffs
  rw [collect_append, collect_append, collect_cons_skip (keepName_foreign_hex h1 h2),
    collect_cons_skip (keepName_foreign_hex h1 h2)]

/-- C4, witness: corrupting the content of another project's new-format
file does not change the listing. -/
theorem C4_witness :
    hexDotStart ("00000000.x.json").toList = true
    ∧ ("00000000.x.json").toList.take 8 ≠ (getProjectHash "/repo/a").toList
    ∧ listHandoffs "/repo/a" ([] ++ ⟨"00000000.x.json", recJan⟩ :: [])
        = listHandoffs "/repo/a" ([] ++ ⟨"00000000.x.json", "garbage \x7b"⟩ :: []) :=
  ⟨by decide, by decide,
    C4_foreign_newformat_content_irrelevant "/repo/a" "00000000.x.json" recJan
      "garbage \x7b" [] [] (by decide) (by decide)⟩

/-- C5: unparseable files never abort the listing and never displace valid
sibling records — the result over any directory equals the result over the
same directory with every unparseable file removed. -/
theorem C5_corrupt_files_skipped (p : String) (dir : List DirEntry) :
    listHandoffs p dir
      = listHandoffs p (dir.filter (fun e => (parseJson e.content).isSome)) := by
  unfold listHandoffs
  congr 1
  induction dir with
  | nil => rfl
  | cons e es ih =>
    by_cases hk : keepName (getProjectHash p) e.name
    · cases hp : parseJson e.content with
      | some j =>
        rw [List.filter_cons, if_pos (by simp [hp])]
        simp [collect, hk, hp, ih]
      | none =>
        rw [List.filter_cons, if_neg (by simp [hp])]
        simp [collect, hk, hp, ih]
    · cases hp : parseJson e.content with
      | some j =>
        rw [List.filter_cons, if_pos (by simp [hp])]
        rw [collect_cons_skip (by simpa using hk), collect_cons_skip (by simpa using hk), ih]
      | none =>
        rw [List.filter_cons, if_neg (by simp [hp])]
        rw [collect_cons_skip (by simpa using hk), ih]

/-- C6, counterexample: `writeHandoff` does not write via a temporary file
followed by a rename onto the destination — its operation trace is not of
that shape for the path `/handoffs/a.json` and the record `null`. -/
theorem C6_counterexample :
    ¬ ∃ tmp c, tmp ≠ "/handoffs/a.json"
        ∧ writeHandoff "/handoffs/a.json" Json.null
            = [FsOp.write tmp c, FsOp.rename tmp "/handoffs/a.json"] := by
  rintro ⟨tmp, c, _, heq⟩
  simp [writeHandoff] at heq

/-- C6, amended: `writeHandoff(path, handoff)` performs exactly one
operation — a single direct write of `JSON.stringify(handoff, null, 2)` to
the destination path (no temporary file, no rename) — and running it
overwrites whatever the filesystem held at that path. -/
theorem C6_write_direct (path : String) (h : Json) (fs : FileSys) :
    writeHandoff path h = [FsOp.write path (stringify2 h)]
    ∧ runFsOps fs (writeHandoff path h) = (path, stringify2 h) :: fs :=
  ⟨rfl, rfl⟩

/-- C7: `readHandoff` distinguishes a missing file from a corrupt one — no
file at the path yields `null` (`.ok none`), while a present file whose
content does not parse surfaces a `CorruptRecordError` to the caller. -/
theorem C7_read_missing_null_corrupt_error (path : String) (fs : FileSys) :
    (lookupFile fs path = none → readHandoff path fs = .ok none)
    ∧ (∀ c, lookupFile fs path = some c → parseJson c = none →
        readHandoff path fs = .error CorruptRecordError.corrupt) := by
  constructor
  · intro h
    unfold readHandoff
    rw [h]
  · intro c h hp
    unfold readHandoff
    rw [h]
    show (match parseJson c with
      | some j => Except.ok (some j)
      | none => Except.error CorruptRecordError.corrupt) = _
    rw [hp]

/-- C7, witness: reading a path absent from a one-file filesystem returns
`null`; reading the present but unparseable file errors. -/
theorem C7_witness :
    readHandoff "missing.json" [("a.json", "nope")] = .ok none
    ∧ readHandoff "a.json" [("a.json", "nope")] = .error CorruptRecordError.corrupt :=
  ⟨(C7_read_missing_null_corrupt_error "missing.json" [("a.json", "nope")]).1 rfl,
    (C7_read_missing_null_corrupt_error "a.json" [("a.json", "nope")]).2 "nope" rfl rfl⟩

/-- C8: `getProjectHash` is a pure function of the input string equal to
the first eight characters of the lowercase-hex SHA-256 digest of its
UTF-8 bytes, always eight characters long; the implementation matches the
FIPS 180-4 test vector for `"abc"` and the empty string. -/
theorem C8_getProjectHash_sha256_prefix :
    (∀ s : String, (getProjectHash s).toList = (sha256Hex (utf8Encode s)).take 8
      ∧ (getProjectHash s).length = 8)
    ∧ getProjectHash "abc" = "ba7816bf"
    ∧ getProjectHash "" = "e3b0c442" :=
  ⟨fun s => ⟨rfl, getProjectHash_strLength s⟩, by decide, by decide⟩

/-- C9: writing a record and reading it back at the same path yields the
record unchanged, field for field, for every path (legacy-named,
new-format-named, or rolling-checkpoint-named alike) and every starting
filesystem. -/
theorem C9_write_then_read_roundtrip (path : String) (h : Json) (fs : FileSys) :
    readHandoff path (runFsOps fs (writeHandoff path h)) = .ok (some h) := by
  show readHandoff path ((path, stringify2 h) :: fs) = .ok (some h)
  unfold readHandoff
  rw [show lookupFile ((path, stringify2 h) :: fs) path = some (stringify2 h) from by
    unfold lookupFile
    rw [if_pos rfl]]
  show (match parseJson (stringify2 h) with
    | some j => Except.ok (some j)
    | none => Except.error CorruptRecordError.corrupt) = _
  rw [parseJson_stringify2]

/-- C10: every project hash is exactly eight lowercase-hex characters;
hence every new-format filename `hash ++ "." ++ …` matches the cheap
rejection pattern `^[a-f0-9]{8}\.`, while a name that does not match the
pattern (for example because of an uppercase character) reaches the
open-and-check-content path of the loop. -/
theorem C10_hash_lowercase_hex_pattern :
    (∀ s : String, (getProjectHash s).toList.length = 8
      ∧ ∀ c ∈ (getProjectHash s).toList, isLowerHexChar c = true)
    ∧ (∀ q rest : String, hexDotStart (getProjectHash q ++ "." ++ rest).toList = true)
    ∧ (∀ (hash : String) (e : DirEntry) (es : List DirEntry),
        hexDotStart e.name.toList = false →
        strEnds e.name ".json" = true →
        strEnds e.name "-current.json" = false →
        collect hash (e :: es) = (match parseJson e.content with
          | some j => if projectHashOf j == some hash then j :: collect hash es
              else collect hash es
          | none => collect hash es)) := by
  refine ⟨fun s => ⟨getProjectHash_length s, getProjectHash_all_hex s⟩, ?_, ?_⟩
  · intro q rest
    have hts : (getProjectHash q ++ "." ++ rest).toList
        = (getProjectHash q).toList ++ ('.' :: rest.toList) := by
      show ((getProjectHash q ++ ".") ++ rest).data = _
      rw [String.data_append, String.data_append, List.append_assoc]
      rfl
    rw [hts]
    unfold hexDotStart
    rw [List.take_left' (getProjectHash_length q),
      List.drop_left' (getProjectHash_length q)]
    simp only [List.all_eq_true, Bool.and_eq_true, beq_iff_eq]
    exact ⟨⟨getProjectHash_all_hex q, getProjectHash_strLength q⟩, rfl⟩
  · intro hash e es h1 h2 h3
    have hkeep : keepName hash e.name = true :=
      keepName_iff.mpr ⟨h2, h3, Or.inr h1⟩
    simp [collect, hkeep]

/-- C10, witness: an uppercase-prefixed name is not classified new-format
and is opened: with content `null` (which parses but has no `project.hash`)
the entry is dropped by the content check, not by the filename. -/
theorem C10_witness :
    ((getProjectHash "x").toList.length = 8
      ∧ ∀ c ∈ (getProjectHash "x").toList, isLowerHexChar c = true)
    ∧ hexDotStart (getProjectHash "x" ++ "." ++ "id.json").toList = true
    ∧ collect "deadbeef" [⟨"DEADBEEF.x.json", "null"⟩]
        = (match parseJson "null" with
          | some j => if projectHashOf j == some "deadbeef"
              then j :: collect "deadbeef" []
              else collect "deadbeef" []
          | none => collect "deadbeef" []) :=
  ⟨C10_hash_lowercase_hex_pattern.1 "x",
    C10_hash_lowercase_hex_pattern.2.1 "x" "id.json",
    C10_hash_lowercase_hex_pattern.2.2 "deadbeef" ⟨"DEADBEEF.x.json", "null"⟩ []
      (by decide) (by decide) (by decide)⟩

end SessionContext
